import Mathlib

/-!
Verification of the bonus ledger / reservation engine of the repository.

The Python sources are shallowly embedded: Python `str` values are modelled
as `List Char` (a Python string is a sequence of code points), Python `int`
as `ℤ`, and Python `float` amounts as exact rationals (float rounding is
idealised away; every amount the system itself writes is integral).
Rationals are represented by the kernel-computable type `Q` of unnormalised
numerator/denominator pairs; `Q.val` interprets them in `ℚ`.
Python `int(x)` (truncation toward zero) is modelled by `pyInt`/`Q.toInt`.
Each CRM network write is assumed to succeed unless the corresponding
`...WriteOk` flag of the write context is false.
-/

namespace Bonus

/-- Python `int(x)` on a real value: truncation toward zero. -/
def pyInt (q : ℚ) : ℤ := if 0 ≤ q then ⌊q⌋ else ⌈q⌉

/-- Exact rational numbers as unnormalised fractions with positive
denominator.  Models Python `float` values without kernel-opaque
normalisation. -/
structure Q where
  num : ℤ
  den : ℕ
  den_pos : 0 < den

instance : DecidableEq Q := fun a b =>
  decidable_of_iff (a.num = b.num ∧ a.den = b.den) (by
    cases a; cases b; simp)

namespace Q

/-- The rational value of a fraction. -/
def val (q : Q) : ℚ := (q.num : ℚ) / (q.den : ℚ)

def ofInt (i : ℤ) : Q := ⟨i, 1, one_pos⟩

def ofNat (n : ℕ) : Q := ⟨(n : ℤ), 1, one_pos⟩

def add (a b : Q) : Q :=
  ⟨a.num * b.den + b.num * a.den, a.den * b.den, Nat.mul_pos a.den_pos b.den_pos⟩

def sub (a b : Q) : Q :=
  ⟨a.num * b.den - b.num * a.den, a.den * b.den, Nat.mul_pos a.den_pos b.den_pos⟩

def mul (a b : Q) : Q :=
  ⟨a.num * b.num, a.den * b.den, Nat.mul_pos a.den_pos b.den_pos⟩

def neg (a : Q) : Q := ⟨-a.num, a.den, a.den_pos⟩

/-- Python `abs`. -/
def pyAbs (a : Q) : Q := ⟨|a.num|, a.den, a.den_pos⟩

/-- Python `a <= b` on floats. -/
def ble (a b : Q) : Bool := decide (a.num * b.den ≤ b.num * a.den)

/-- Python `a < b` on floats. -/
def blt (a b : Q) : Bool := decide (a.num * b.den < b.num * a.den)

/-- Python `a == b` on floats. -/
def beq (a b : Q) : Bool := decide (a.num * b.den = b.num * a.den)

/-- Python `min(a, b)`. -/
def qmin (a b : Q) : Q := if ble a b then a else b

/-- Python `max(a, b)`. -/
def qmax (a b : Q) : Q := if blt a b then b else a

/-- Python `int(x)` applied to a float: truncation toward zero. -/
def toInt (a : Q) : ℤ := a.num.tdiv a.den

theorem den_cast_pos (a : Q) : (0 : ℚ) < (a.den : ℚ) := by
  exact_mod_cast a.den_pos

theorem den_cast_ne (a : Q) : ((a.den : ℚ)) ≠ 0 := ne_of_gt a.den_cast_pos

@[simp] theorem val_ofInt (i : ℤ) : (ofInt i).val = (i : ℚ) := by
  simp [val, ofInt]

@[simp] theorem val_ofNat (n : ℕ) : (ofNat n).val = (n : ℚ) := by
  simp [val, ofNat]

@[simp] theorem val_add (a b : Q) : (add a b).val = a.val + b.val := by
  unfold val add
  rw [div_add_div _ _ a.den_cast_ne b.den_cast_ne]
  push_cast
  ring_nf

@[simp] theorem val_sub (a b : Q) : (sub a b).val = a.val - b.val := by
  unfold val sub
  rw [div_sub_div _ _ a.den_cast_ne b.den_cast_ne]
  push_cast
  ring_nf

@[simp] theorem val_mul (a b : Q) : (mul a b).val = a.val * b.val := by
  unfold val mul
  rw [div_mul_div_comm]
  push_cast
  ring_nf

@[simp] theorem val_neg (a : Q) : (neg a).val = -a.val := by
  simp [val, neg, neg_div]

@[simp] theorem val_pyAbs (a : Q) : (pyAbs a).val = |a.val| := by
  unfold val pyAbs
  rw [abs_div]
  simp [abs_of_pos a.den_cast_pos]

@[simp] theorem ble_iff (a b : Q) : ble a b = true ↔ a.val ≤ b.val := by
  unfold ble val
  rw [div_le_div_iff₀ a.den_cast_pos b.den_cast_pos]
  rw [decide_eq_true_iff]
  constructor
  · intro h; exact_mod_cast h
  · intro h; exact_mod_cast h

@[simp] theorem blt_iff (a b : Q) : blt a b = true ↔ a.val < b.val := by
  unfold blt val
  rw [div_lt_div_iff₀ a.den_cast_pos b.den_cast_pos]
  rw [decide_eq_true_iff]
  constructor
  · intro h; exact_mod_cast h
  · intro h; exact_mod_cast h

@[simp] theorem beq_iff (a b : Q) : beq a b = true ↔ a.val = b.val := by
  unfold beq val
  rw [div_eq_div_iff a.den_cast_ne b.den_cast_ne]
  rw [decide_eq_true_iff]
  constructor
  · intro h; exact_mod_cast h
  · intro h; exact_mod_cast h

@[simp] theorem val_qmin (a b : Q) : (qmin a b).val = min a.val b.val := by
  unfold qmin
  by_cases h : ble a b = true
  · rw [if_pos h, min_eq_left ((ble_iff a b).mp h)]
  · rw [if_neg h]
    have := (not_congr (ble_iff a b)).mp h
    rw [min_eq_right (le_of_not_le this)]

@[simp] theorem val_qmax (a b : Q) : (qmax a b).val = max a.val b.val := by
  unfold qmax
  by_cases h : blt a b = true
  · rw [if_pos h, max_eq_right (le_of_lt ((blt_iff a b).mp h))]
  · rw [if_neg h]
    have := (not_congr (blt_iff a b)).mp h
    rw [max_eq_left (le_of_not_lt this)]

theorem val_nonneg_iff (a : Q) : 0 ≤ a.val ↔ 0 ≤ a.num := by
  unfold val
  rw [le_div_iff₀ a.den_cast_pos, zero_mul]
  constructor
  · intro h; exact_mod_cast h
  · intro h; exact_mod_cast h

/-- `Q.toInt` agrees with truncation toward zero of the rational value. -/
theorem toInt_eq_pyInt (a : Q) : a.toInt = pyInt a.val := by
  unfold toInt pyInt
  by_cases h : 0 ≤ a.val
  · rw [if_pos h]
    have hn : 0 ≤ a.num := (val_nonneg_iff a).mp h
    unfold val
    rw [Rat.floor_intCast_div_natCast]
    rw [Int.tdiv_eq_ediv hn (Int.ofNat_nonneg a.den)]
  · rw [if_neg h]
    have hn : a.num < 0 := by
      by_contra hc
      exact h ((val_nonneg_iff a).mpr (le_of_not_lt hc))
    have hceil : ⌈a.val⌉ = -⌊-a.val⌋ := by
      rw [← Int.ceil_neg, neg_neg]
    rw [hceil]
    have hval : -a.val = ((-a.num : ℤ) : ℚ) / ((a.den : ℕ) : ℚ) := by
      unfold val
      push_cast
      ring
    rw [hval, Rat.floor_intCast_div_natCast]
    have htd : a.num.tdiv a.den = -((-a.num).tdiv a.den) := by
      rw [Int.neg_tdiv, neg_neg]
    rw [htd, Int.tdiv_eq_ediv (by omega) (Int.ofNat_nonneg a.den)]

end Q

/-! ### Strings-as-char-lists: Python string primitives used by the source -/

/-- Decimal digit character for `n ≤ 9` (helper for the decimal printer). -/
def digitChar (n : ℕ) : Char :=
  if n = 0 then '0' else if n = 1 then '1' else if n = 2 then '2'
  else if n = 3 then '3' else if n = 4 then '4' else if n = 5 then '5'
  else if n = 6 then '6' else if n = 7 then '7' else if n = 8 then '8'
  else '9'

/-- Fuel-driven decimal printer (fuel is an upper bound on the digit count). -/
def natToCharsAux : ℕ → ℕ → List Char → List Char
  | 0, _, acc => acc
  | fuel + 1, n, acc =>
    if n < 10 then digitChar n :: acc
    else natToCharsAux fuel (n / 10) (digitChar (n % 10) :: acc)

/-- Decimal representation of a natural number, as Python `str(n)`. -/
def natToChars (n : ℕ) : List Char := natToCharsAux (n + 1) n []

/-- Decimal representation of an integer, as Python `str(i)`. -/
def intToChars (i : ℤ) : List Char :=
  if i < 0 then '-' :: natToChars i.natAbs else natToChars i.toNat

/-- Python `pat in s` substring test. -/
def infixB (pat s : List Char) : Bool := decide (pat <:+: s)

/-- Python `s.split('\n')`. -/
def splitNL : List Char → List (List Char)
  | [] => [[]]
  | c :: cs =>
    if c = '\n' then [] :: splitNL cs
    else
      match splitNL cs with
      | l :: ls => (c :: l) :: ls
      | [] => [[c]]

/-- Python `s.strip()` (whitespace removed at both ends). -/
def strip (l : List Char) : List Char :=
  ((l.dropWhile Char.isWhitespace).reverse.dropWhile Char.isWhitespace).reverse

/-- The non-empty stripped lines of a history blob, i.e. the loop
`for line in history.split('\n'): line = line.strip(); if not line: continue`
and likewise the comprehension
`[line.strip() for line in history.split('\n') if line.strip()]`. -/
def cleanLines (h : List Char) : List (List Char) :=
  ((splitNL h).map strip).filter (fun l => l ≠ [])

/-- Python `'\n\n'.join(lines)` (separator used by `log_transaction`). -/
def joinDD : List (List Char) → List Char
  | [] => []
  | [l] => l
  | l :: ls => l ++ '\n' :: '\n' :: joinDD ls

/-- Python `'\n'.join(lines)` (separator used by `log_transaction_in_keycrm`). -/
def joinNL : List (List Char) → List Char
  | [] => []
  | [l] => l
  | l :: ls => l ++ '\n' :: joinNL ls

/-! ### Ledger scanning (`bonus_operations.py`)

The regex `резерв\s+(\d+)` is modelled with ASCII digits and the usual
whitespace class, which is exact on every entry this system writes. -/

/-- The literal pattern `резерв`. -/
def rezChars : List Char := ['р', 'е', 'з', 'е', 'р', 'в']

/-- The literal pattern `ручний резерв`. -/
def manRezChars : List Char :=
  ['р', 'у', 'ч', 'н', 'и', 'й', ' ', 'р', 'е', 'з', 'е', 'р', 'в']

/-- Reads `\d+` as a number (the regex group converted by `float`). -/
def digitsToNat (ds : List Char) : ℕ :=
  List.foldl (fun acc c => 10 * acc + (c.toNat - 48)) 0 ds

/-- Matches the regex tail `\s+(\d+)` at the start of `cs`. -/
def parseRezTail (cs : List Char) : Option ℕ :=
  match cs with
  | [] => none
  | c :: _ =>
    if c.isWhitespace then
      let ds := (cs.dropWhile Char.isWhitespace).takeWhile Char.isDigit
      if ds = [] then none else some (digitsToNat ds)
    else none

/-- `re.search(r'резерв\s+(\d+)', line)`: value of the group at the
leftmost position where the whole pattern matches. -/
def searchRez : List Char → Option ℕ
  | [] => none
  | c :: cs =>
    if rezChars.isPrefixOf (c :: cs) then
      match parseRezTail ((c :: cs).drop rezChars.length) with
      | some n => some n
      | none => searchRez cs
    else searchRez cs

/-- One iteration of the scan loop of `find_reserved_amount_for_order`:
the reserve amount a (stripped, non-empty) line contributes for `orderId`. -/
def reserveAmountInLine (orderId line : List Char) : Option ℕ :=
  if infixB ('#' :: orderId) line then
    if (line.contains '🔒' || line.contains '🔐') && infixB rezChars line then
      searchRez line
    else none
  else none

/-- `BonusOperations.find_reserved_amount_for_order`: total reserved amount
recorded in the history for an order; `none` when no entry matched
(distinct from a found total of zero). -/
def find_reserved_amount_for_order (history orderId : List Char) : Option ℕ :=
  if history = [] then none
  else
    let amts := (cleanLines history).filterMap (reserveAmountInLine orderId)
    if amts = [] then none else some amts.sum

/-- `BonusOperations.has_manual_reserve_for_order`. -/
def has_manual_reserve_for_order (history orderId : List Char) : Bool :=
  if history = [] then false
  else
    (cleanLines history).any (fun line =>
      infixB ('#' :: orderId) line &&
      ((line.contains '🔐' && infixB manRezChars line) ||
       (line.contains '🔒' && infixB manRezChars line)))

/-! ### `log_transaction` (`bonus_operations.py`)

`Wctx` bundles the ambient inputs of one handler invocation: the two
timestamp strings produced from `datetime.utcnow()`, the recomputed expiry
date written by `update_buyer_bonus`, and the success of the two CRM
writes (balance update and history update). -/

structure Wctx where
  dateStr : List Char
  expiryStr : List Char
  newExpiry : ℤ
  balanceWriteOk : Bool
  historyWriteOk : Bool
  deriving DecidableEq

/-- `operation_type` strings accepted by `log_transaction` /
`OPERATION_EMOJIS`. -/
inductive OpType
  | completed
  | cancelled
  | reserved
  | manual_use
  | manual_reserve
  deriving DecidableEq

/-- The `OPERATION_EMOJIS` table of `config.py`. -/
def opEmoji : OpType → Char
  | OpType.completed => '✅'
  | OpType.cancelled => '❌'
  | OpType.reserved => '🔒'
  | OpType.manual_use => '👤'
  | OpType.manual_reserve => '🔐'

/-- Result of `log_transaction`: the returned dict (`success`, the
`history_updated` key when present) together with the history field's
post-call value in the store and the formatted entry. -/
structure LogResult where
  success : Bool
  history_updated : Option Bool
  newHistory : List Char
  transaction_log : List Char
  deriving DecidableEq

/-- The `identifier` built by `log_transaction` from order id and lead id. -/
def logIdentifier (orderId : List Char) (leadId : Option (List Char)) :
    List Char :=
  let base := if orderId = [] then [] else '#' :: orderId
  match leadId with
  | none => base
  | some l =>
    if base = [] then "Лід #".toList ++ l
    else base ++ " (Лід #".toList ++ l ++ [')']

/-- The `operations` list built by `log_transaction`. -/
def logOperations (t : OpType) (bonus used : Q) : List (List Char) :=
  let ops1 : List (List Char) :=
    if t = OpType.reserved ∨ t = OpType.manual_reserve then
      [(if t = OpType.manual_reserve then "ручний ".toList else [])
        ++ rezChars ++ (' ' :: intToChars (Q.pyAbs used).toInt)]
    else if Q.beq used (Q.ofInt 0) then []
    else if t = OpType.cancelled ∧ Q.blt used (Q.ofInt 0) then
      ["повернуто ".toList ++ intToChars (Q.pyAbs used).toInt]
    else if Q.blt (Q.ofInt 0) used then
      ["використано ".toList ++ intToChars (Q.pyAbs used).toInt]
    else []
  if Q.blt (Q.ofInt 0) bonus ∧ t = OpType.completed then
    ops1 ++ ["нараховано ".toList ++ intToChars bonus.toInt]
  else ops1

/-- Python `', '.join`. -/
def joinCommaSp : List (List Char) → List Char
  | [] => []
  | [l] => l
  | l :: ls => l ++ ',' :: ' ' :: joinCommaSp ls

/-- The `operation_str` of `log_transaction`. -/
def logOperationStr (t : OpType) (bonus used : Q) : List Char :=
  if logOperations t bonus used = [] then "без змін".toList
  else joinCommaSp (logOperations t bonus used)

/-- The `transaction_entry` string built by `log_transaction`. -/
def logEntry (ctx : Wctx) (orderId : List Char) (leadId : Option (List Char))
    (t : OpType) (bonus used : Q) (oldB newB : ℤ) (total : Q) : List Char :=
  opEmoji t :: ' ' :: ctx.dateStr
    ++ " | ".toList ++ logIdentifier orderId leadId
    ++ " | ".toList ++ intToChars total.toInt ++ "₴ | ".toList
    ++ logOperationStr t bonus used ++ " | ".toList
    ++ intToChars oldB ++ '→' :: intToChars newB
    ++ " | до ".toList ++ ctx.expiryStr

/-- `BonusOperations.log_transaction`.  `history` is the current value of
the history custom field (the source re-reads it at call time). -/
def log_transaction (ctx : Wctx) (orderId : List Char)
    (leadId : Option (List Char)) (t : OpType) (bonus used : Q)
    (oldB newB : ℤ) (total : Q) (history : List Char) : LogResult :=
  let entry := logEntry ctx orderId leadId t bonus used oldB newB total
  let identifier := logIdentifier orderId leadId
  let dup : Bool :=
    if identifier ≠ [] ∧ (t = OpType.reserved ∨ t = OpType.manual_reserve) then
      if t = OpType.manual_reserve then
        has_manual_reserve_for_order history orderId
      else
        infixB identifier history &&
          (infixB rezChars history && !(infixB manRezChars history))
    else false
  if dup then ⟨true, some false, history, entry⟩
  else
    let newLines := entry :: cleanLines history
    let newLines2 := if newLines.length > 50 then newLines.take 50 else newLines
    let newHist := joinDD newLines2
    let newHist2 :=
      if newHist.length > 4000 then joinDD (newLines2.take 40) ++ "\n\n...".toList
      else newHist
    if ctx.historyWriteOk then ⟨true, some true, newHist2, entry⟩
    else ⟨false, none, history, entry⟩

/-! ### Account state and the four `bonus_operations.py` handlers

An `Account` is the CRM-held state this core mutates: the custom fields
`CT_1023` (active), `CT_1034` (reserved), `CT_1024` (expiry date, modelled
as an abstract integer timestamp) and `CT_1033` (history text). -/

structure Account where
  active : ℤ
  reserved : ℤ
  expiry : Option ℤ
  history : List Char
  deriving DecidableEq

/-- `BONUS_PERCENTAGE = 0.10` of `config.py`. -/
def BONUS_PERCENTAGE : Q := ⟨1, 10, by norm_num⟩

/-- The literal `0.5` used for the redemption cap. -/
def HALF : Q := ⟨1, 2, by norm_num⟩

inductive AutoRKind
  | skippedNoPromo
  | noAvail
  | errUpdate
  | ok
  deriving DecidableEq

/-- Outcome of `handle_order_reservation`: transport response kind plus the
`log_transaction` result (when reached) and the post-call account. -/
structure ReserveOutcome where
  status : ℕ
  success : Bool
  kind : AutoRKind
  logRes : Option LogResult
  account : Account
  deriving DecidableEq

/-- `BonusOperations.handle_order_reservation`, from the point where the
webhook payload has been validated and the buyer record read.
`promoNonempty` is `bool(promo_code)`. -/
def handle_order_reservation (ctx : Wctx) (orderId : List Char)
    (promoNonempty : Bool) (total discount : Q) (a : Account) :
    ReserveOutcome :=
  if promoNonempty = false ∨ Q.beq discount (Q.ofInt 0) then
    ⟨200, true, AutoRKind.skippedNoPromo, none, a⟩
  else
    let grant := Q.qmin discount (Q.ofInt a.active)
    if Q.ble grant (Q.ofInt 0) then ⟨200, true, AutoRKind.noAvail, none, a⟩
    else
      let newB := (Q.sub (Q.ofInt a.active) grant).toInt
      let newR := (Q.add (Q.ofInt a.reserved) grant).toInt
      if ctx.balanceWriteOk = false then
        ⟨500, false, AutoRKind.errUpdate, none, a⟩
      else
        let lr := log_transaction ctx orderId none OpType.reserved
          (Q.ofInt 0) grant a.active newB total a.history
        ⟨200, true, AutoRKind.ok, some lr,
          ⟨newB, newR, some ctx.newExpiry, lr.newHistory⟩⟩

/-- Outcome of `handle_order_completion` (validated payload, buyer read). -/
structure CompleteOutcome where
  status : ℕ
  success : Bool
  usedBonus : Option Q
  newBonus : Option ℤ
  newReserved : Option ℤ
  logRes : Option LogResult
  account : Account
  deriving DecidableEq

/-- `BonusOperations.handle_order_completion` composed with
`handle_order_completion_logic`, from the point where the payload has been
validated and the buyer record and history have been read. -/
def handle_order_completion (ctx : Wctx) (orderId : List Char)
    (grand_total discount : Q) (a : Account) : CompleteOutcome :=
  let bonus := Q.mul grand_total BONUS_PERCENTAGE
  let resv : Q :=
    match find_reserved_amount_for_order a.history orderId with
    | some n => Q.ofNat n
    | none => discount
  let newR := (Q.qmax (Q.ofInt 0) (Q.sub (Q.ofInt a.reserved) resv)).toInt
  let newB := (Q.add (Q.ofInt a.active) bonus).toInt
  if ctx.balanceWriteOk = false then ⟨500, false, none, none, none, none, a⟩
  else
    let lr := log_transaction ctx orderId none OpType.completed bonus resv
      a.active newB grand_total a.history
    ⟨200, true, some resv, some newB, some newR, some lr,
      ⟨newB, newR, some ctx.newExpiry, lr.newHistory⟩⟩

/-- Outcome of `handle_order_cancellation_by_client_id`. -/
structure CancelOutcome where
  status : ℕ
  success : Bool
  returnedBonus : Option Q
  newBonus : Option ℤ
  newReserved : Option ℤ
  logRes : Option LogResult
  account : Account
  deriving DecidableEq

/-- `BonusOperations.handle_order_cancellation_by_client_id`, from the
point where the buyer record and history have been read.  `used_amt` is
the caller-supplied `used_bonus_amount` fallback. -/
def handle_order_cancellation_by_client_id (ctx : Wctx) (orderId : List Char)
    (used_amt order_total : Q) (a : Account) : CancelOutcome :=
  let resv : Q :=
    match find_reserved_amount_for_order a.history orderId with
    | some n => Q.ofNat n
    | none => used_amt
  let ret := Q.qmin resv (Q.ofInt a.reserved)
  let newB := (Q.add (Q.ofInt a.active) ret).toInt
  let newR := (Q.sub (Q.ofInt a.reserved) ret).toInt
  if ctx.balanceWriteOk = false then ⟨500, false, none, none, none, none, a⟩
  else
    let lr := log_transaction ctx orderId none OpType.cancelled (Q.ofInt 0)
      (Q.neg ret) a.active newB order_total a.history
    ⟨200, true, some ret, some newB, some newR, some lr,
      ⟨newB, newR, some ctx.newExpiry, lr.newHistory⟩⟩

inductive ManualKind
  | errNoAmount
  | errBadTotal
  | errCapDiscount
  | alreadyReserved
  | errCapExceeded
  | noAvail
  | errUpdate
  | ok
  deriving DecidableEq

/-- Outcome of `handle_lead_bonus_reservation`: response kind, the
`amount_correction` trio of the success response, the log result and the
post-call account. -/
structure ManualOutcome where
  status : ℕ
  success : Bool
  kind : ManualKind
  requested : Q
  actual : Option Q
  was_corrected : Bool
  logRes : Option LogResult
  account : Account
  deriving DecidableEq

/-- `BonusOperations.handle_lead_bonus_reservation`, from the point where
the lead's order id and requested amount and the order's total and current
discount have been fetched. -/
def handle_lead_bonus_reservation (ctx : Wctx) (orderId leadId : List Char)
    (order_total current_discount reserve_req : Q) (a : Account) :
    ManualOutcome :=
  if Q.ble reserve_req (Q.ofInt 0) then
    ⟨400, false, ManualKind.errNoAmount, reserve_req, none, false, none, a⟩
  else if Q.ble order_total (Q.ofInt 0) then
    ⟨400, false, ManualKind.errBadTotal, reserve_req, none, false, none, a⟩
  else
    let maxTotal := Q.mul order_total HALF
    let corrected := Q.blt maxTotal (Q.add current_discount reserve_req)
    let amt := if corrected then Q.sub maxTotal current_discount else reserve_req
    if corrected ∧ Q.ble amt (Q.ofInt 0) then
      ⟨400, false, ManualKind.errCapDiscount, reserve_req, none, false, none, a⟩
    else
      let already : ℕ := (find_reserved_amount_for_order a.history orderId).getD 0
      if has_manual_reserve_for_order a.history orderId then
        ⟨200, true, ManualKind.alreadyReserved, reserve_req, none, corrected,
          none, a⟩
      else
        let maxAllowed := Q.mul order_total HALF
        if Q.blt maxAllowed (Q.add (Q.ofNat already) amt) then
          ⟨400, false, ManualKind.errCapExceeded, reserve_req, none, corrected,
            none, a⟩
        else
          let grant := Q.qmin amt (Q.ofInt a.active)
          if Q.ble grant (Q.ofInt 0) then
            ⟨200, true, ManualKind.noAvail, reserve_req, none, corrected,
              none, a⟩
          else
            let newB := (Q.sub (Q.ofInt a.active) grant).toInt
            let newR := (Q.add (Q.ofInt a.reserved) grant).toInt
            if ctx.balanceWriteOk = false then
              ⟨500, false, ManualKind.errUpdate, reserve_req, none, corrected,
                none, a⟩
            else
              let lr := log_transaction ctx orderId (some leadId)
                OpType.manual_reserve (Q.ofInt 0) grant a.active newB
                order_total a.history
              ⟨200, true, ManualKind.ok, reserve_req, some grant, corrected,
                some lr, ⟨newB, newR, some ctx.newExpiry, lr.newHistory⟩⟩

/-! ### Expiry sweep (`bonus_accrual_lambda/lambda_function.py`) -/

/-- The entry string built by `log_transaction_in_keycrm`. -/
def ltkEntry (ctx : Wctx) (orderRef : List Char) (bonus : Q) (oldB newB : ℤ)
    (total : Option Q) : List Char :=
  let totalInt : ℤ :=
    match total with
    | some t => t.toInt
    | none => 0
  let added :=
    if Q.ble (Q.ofInt 0) bonus then '+' :: intToChars bonus.toInt
    else "+0".toList
  let used :=
    if Q.ble (Q.ofInt 0) bonus then "-0".toList
    else '-' :: intToChars (Q.pyAbs bonus).toInt
  '🎁' :: ' ' :: ctx.dateStr
    ++ " | #".toList ++ orderRef
    ++ " | ".toList ++ intToChars totalInt ++ "₴ | ".toList
    ++ added ++ " | ".toList ++ used ++ " | ".toList
    ++ intToChars oldB ++ '→' :: intToChars newB
    ++ " | до ".toList ++ ctx.expiryStr

/-- `log_transaction_in_keycrm` of the accrual lambda (its own, legacy
single-newline format: 10 records, 1000 characters). -/
def log_transaction_in_keycrm (ctx : Wctx) (orderRef : List Char) (bonus : Q)
    (oldB newB : ℤ) (total : Option Q) (history : List Char) : LogResult :=
  let entry := ltkEntry ctx orderRef bonus oldB newB total
  if infixB ('#' :: orderRef) history then ⟨true, some false, history, entry⟩
  else
    let newLines := entry :: cleanLines history
    let newLines2 := if newLines.length > 10 then newLines.take 10 else newLines
    let newHist := joinNL newLines2
    let newHist2 :=
      if newHist.length > 1000 then joinNL (newLines2.take 7) ++ "\n...".toList
      else newHist
    if ctx.historyWriteOk then ⟨true, some true, newHist2, entry⟩
    else ⟨false, none, history, entry⟩

/-- Result dict of `check_bonus_expiry`. -/
structure SweepRes where
  success : Bool
  expired : Bool
  expired_amount : Option ℤ
  deriving DecidableEq

/-- The synthetic order reference `EXPIRED_{timestamp}` used for the
expiry ledger entry. -/
def expiredRef (tsRef : List Char) : List Char := "EXPIRED_".toList ++ tsRef

/-- `check_bonus_expiry`: lazily zeroes an expired active balance.  `now`
and the stored expiry date are abstract comparable timestamps; `tsRef` is
`int(current_date.timestamp())` rendered for the entry. -/
def check_bonus_expiry (ctx : Wctx) (now : ℤ) (tsRef : List Char)
    (a : Account) : SweepRes × Account :=
  if a.active ≤ 0 ∨ a.expiry = none then (⟨true, false, none⟩, a)
  else
    match a.expiry with
    | none => (⟨true, false, none⟩, a)
    | some d =>
      if d < now then
        if ctx.balanceWriteOk then
          let lr := log_transaction_in_keycrm ctx (expiredRef tsRef)
            (Q.ofInt (-a.active)) a.active 0 none a.history
          (⟨true, true, some a.active⟩,
            ⟨0, a.reserved, some ctx.newExpiry, lr.newHistory⟩)
        else (⟨false, false, none⟩, a)
      else (⟨true, false, none⟩, a)

/-- Result of `sync_bonus_deduction_with_keycrm`. -/
structure DedRes where
  success : Bool
  errExpired : Bool
  errInsufficient : Bool
  newBonus : Option ℤ
  deriving DecidableEq

/-- `sync_bonus_deduction_with_keycrm`, from the point where the buyer has
been found: runs the expiry check first and refuses the deduction when the
balance was just zeroed. -/
def sync_bonus_deduction_with_keycrm (ctx : Wctx) (now : ℤ)
    (tsRef orderId : List Char) (deduct : ℤ) (a : Account) :
    DedRes × Account :=
  let swept := check_bonus_expiry ctx now tsRef a
  if swept.1.expired then (⟨false, true, false, none⟩, swept.2)
  else if a.active < deduct then (⟨false, false, true, none⟩, swept.2)
  else
    let newB := a.active - deduct
    if ctx.balanceWriteOk then
      let lr := log_transaction_in_keycrm ctx orderId (Q.ofInt (-deduct))
        a.active newB none swept.2.history
      (⟨true, false, false, some newB⟩,
        ⟨newB, swept.2.reserved, some ctx.newExpiry, lr.newHistory⟩)
    else (⟨false, false, false, none⟩, swept.2)

/-! ### Record-store writes issued per operation (for the atomicity claim) -/

/-- CRM custom fields (plus `full_name`) a single PUT request touches. -/
inductive FieldW
  | bonusF
  | reservedF
  | expiryF
  | historyF
  | fullNameF
  deriving DecidableEq

/-- Fields written by one `KeyCRMClient.update_buyer_bonus` PUT. -/
def update_buyer_bonus_fields (withReserved : Bool) : List FieldW :=
  [FieldW.bonusF, FieldW.expiryF] ++ (if withReserved then [FieldW.reservedF] else [])

/-- Fields written by one `KeyCRMClient.update_bonus_history` PUT. -/
def update_bonus_history_fields : List FieldW := [FieldW.fullNameF, FieldW.historyF]

/-- The sequence of PUT requests `handle_order_completion_logic` issues:
first the balance update, then (if the former succeeded) the separate
history update performed inside `log_transaction`. -/
def handle_order_completion_writes (ctx : Wctx) : List (List FieldW) :=
  if ctx.balanceWriteOk then
    [update_buyer_bonus_fields true, update_bonus_history_fields]
  else [update_buyer_bonus_fields true]

/-- A PUT that changes a balance field. -/
@[reducible]
def touchesBalances (w : List FieldW) : Prop :=
  FieldW.bonusF ∈ w ∨ FieldW.reservedF ∈ w

/-- A PUT that changes the ledger text. -/
@[reducible]
def touchesLedger (w : List FieldW) : Prop := FieldW.historyF ∈ w

/-- Fields written by one `update_buyer_bonus_in_keycrm` PUT of the
accrual lambda: `full_name`, the balance and the recomputed expiry date
(never the reserved balance). -/
def update_buyer_bonus_in_keycrm_fields : List FieldW :=
  [FieldW.fullNameF, FieldW.bonusF, FieldW.expiryF]

/-- The PUT requests `log_transaction` issues: none when the duplicate
scan skips the write, otherwise the single separate history PUT. -/
def log_transaction_writes (orderId : List Char) (leadId : Option (List Char))
    (t : OpType) (history : List Char) : List (List FieldW) :=
  let identifier := logIdentifier orderId leadId
  let dup : Bool :=
    if identifier ≠ [] ∧ (t = OpType.reserved ∨ t = OpType.manual_reserve) then
      if t = OpType.manual_reserve then
        has_manual_reserve_for_order history orderId
      else
        infixB identifier history &&
          (infixB rezChars history && !(infixB manRezChars history))
    else false
  if dup then [] else [update_bonus_history_fields]

/-- The PUT sequence `handle_order_reservation` issues: nothing on the
skip paths, the balance PUT alone when it fails, otherwise the balance
PUT followed by whatever `log_transaction` sends. -/
def handle_order_reservation_writes (ctx : Wctx) (orderId : List Char)
    (promoNonempty : Bool) (discount : Q) (a : Account) :
    List (List FieldW) :=
  if promoNonempty = false ∨ Q.beq discount (Q.ofInt 0) then []
  else
    let grant := Q.qmin discount (Q.ofInt a.active)
    if Q.ble grant (Q.ofInt 0) then []
    else if ctx.balanceWriteOk = false then [update_buyer_bonus_fields true]
    else update_buyer_bonus_fields true ::
      log_transaction_writes orderId none OpType.reserved a.history

/-- The PUT sequence `handle_order_cancellation_by_client_id` issues. -/
def handle_order_cancellation_writes (ctx : Wctx) (orderId : List Char)
    (a : Account) : List (List FieldW) :=
  if ctx.balanceWriteOk = false then [update_buyer_bonus_fields true]
  else update_buyer_bonus_fields true ::
    log_transaction_writes orderId none OpType.cancelled a.history

/-- The PUT sequence `handle_lead_bonus_reservation` issues, mirroring
its validation/duplicate/cap/availability early returns. -/
def handle_lead_bonus_reservation_writes (ctx : Wctx)
    (orderId leadId : List Char) (order_total current_discount reserve_req : Q)
    (a : Account) : List (List FieldW) :=
  if Q.ble reserve_req (Q.ofInt 0) then []
  else if Q.ble order_total (Q.ofInt 0) then []
  else
    let maxTotal := Q.mul order_total HALF
    let corrected := Q.blt maxTotal (Q.add current_discount reserve_req)
    let amt := if corrected then Q.sub maxTotal current_discount else reserve_req
    if corrected ∧ Q.ble amt (Q.ofInt 0) then []
    else
      let already : ℕ := (find_reserved_amount_for_order a.history orderId).getD 0
      if has_manual_reserve_for_order a.history orderId then []
      else
        let maxAllowed := Q.mul order_total HALF
        if Q.blt maxAllowed (Q.add (Q.ofNat already) amt) then []
        else
          let grant := Q.qmin amt (Q.ofInt a.active)
          if Q.ble grant (Q.ofInt 0) then []
          else if ctx.balanceWriteOk = false then [update_buyer_bonus_fields true]
          else update_buyer_bonus_fields true ::
            log_transaction_writes orderId (some leadId) OpType.manual_reserve
              a.history

/-- The PUT sequence `check_bonus_expiry` issues: nothing on the no-op
paths, the balance-zeroing PUT alone when it fails, otherwise that PUT
followed by the history PUT of `log_transaction_in_keycrm` (skipped when
its duplicate scan finds the reference). -/
def check_bonus_expiry_writes (ctx : Wctx) (now : ℤ) (tsRef : List Char)
    (a : Account) : List (List FieldW) :=
  if a.active ≤ 0 ∨ a.expiry = none then []
  else
    match a.expiry with
    | none => []
    | some d =>
      if d < now then
        if ctx.balanceWriteOk then
          update_buyer_bonus_in_keycrm_fields ::
            (if infixB ('#' :: expiredRef tsRef) a.history then []
             else [update_bonus_history_fields])
        else [update_buyer_bonus_in_keycrm_fields]
      else []

/-- The two-phase write discipline the amended C7 claims: each operation
issues either no PUT, or the balance PUT alone, or (only when the balance
PUT succeeded) the balance PUT followed by the separate history PUT. -/
def twoPhase (ctx : Wctx) (bal hist : List FieldW)
    (ws : List (List FieldW)) : Prop :=
  ws = [] ∨ ws = [bal] ∨ (ctx.balanceWriteOk = true ∧ ws = [bal, hist])

/-! ### The operation alphabet for the reachable-state invariant -/

/-- One inbound event against a single account, with the per-invocation
ambient inputs it is handled under. -/
inductive Op
  | reserveAuto (ctx : Wctx) (orderId : List Char) (promo : Bool)
      (total discount : Q)
  | reserveManual (ctx : Wctx) (orderId leadId : List Char)
      (total curDisc req : Q)
  | complete (ctx : Wctx) (orderId : List Char) (total discount : Q)
  | cancel (ctx : Wctx) (orderId : List Char) (usedAmt total : Q)
  | sweep (ctx : Wctx) (now : ℤ) (tsRef : List Char)

/-- The state transformer of each operation (the account it leaves in the
record store). -/
def applyOp : Op → Account → Account
  | Op.reserveAuto ctx oid promo total disc, a =>
    (handle_order_reservation ctx oid promo total disc a).account
  | Op.reserveManual ctx oid lid total cd req, a =>
    (handle_lead_bonus_reservation ctx oid lid total cd req a).account
  | Op.complete ctx oid total disc, a =>
    (handle_order_completion ctx oid total disc a).account
  | Op.cancel ctx oid used total, a =>
    (handle_order_cancellation_by_client_id ctx oid used total a).account
  | Op.sweep ctx now ts, a => (check_bonus_expiry ctx now ts a).2

/-- Non-negative monetary inputs of an operation. -/
def OpValid : Op → Prop
  | Op.reserveAuto _ _ _ total disc => 0 ≤ total.val ∧ 0 ≤ disc.val
  | Op.reserveManual _ _ _ total cd req =>
    0 ≤ total.val ∧ 0 ≤ cd.val ∧ 0 ≤ req.val
  | Op.complete _ _ total disc => 0 ≤ total.val ∧ 0 ≤ disc.val
  | Op.cancel _ _ used total => 0 ≤ used.val ∧ 0 ≤ total.val
  | Op.sweep _ _ _ => True

/-- A fresh zero-balance account (implicit creation on first contact). -/
def zeroAccount : Account := ⟨0, 0, none, []⟩

/-- Replay a sequence of operations from the zero account. -/
def runOps (ops : List Op) : Account :=
  List.foldl (fun a op => applyOp op a) zeroAccount ops

/-! ### Arithmetic facts about truncation -/

theorem pyInt_nonneg {q : ℚ} (h : 0 ≤ q) : 0 ≤ pyInt q := by
  unfold pyInt
  rw [if_pos h]
  exact Int.floor_nonneg.mpr h

theorem pyInt_le {q : ℚ} (h : 0 ≤ q) : (pyInt q : ℚ) ≤ q := by
  unfold pyInt
  rw [if_pos h]
  exact Int.floor_le q

theorem pyInt_intCast (n : ℤ) : pyInt (n : ℚ) = n := by
  unfold pyInt
  split
  · exact Int.floor_intCast n
  · exact Int.ceil_intCast n

theorem pyInt_add_int (n : ℤ) {q : ℚ} (hn : 0 ≤ n) (hq : 0 ≤ q) :
    pyInt ((n : ℚ) + q) = n + ⌊q⌋ := by
  unfold pyInt
  rw [if_pos (by positivity)]
  rw [add_comm, Int.floor_add_int, add_comm]

theorem Q.toInt_nonneg {q : Q} (h : 0 ≤ q.val) : 0 ≤ q.toInt := by
  rw [Q.toInt_eq_pyInt]
  exact pyInt_nonneg h

theorem BONUS_PERCENTAGE_val : BONUS_PERCENTAGE.val = 1 / 10 := by
  norm_num [Q.val, BONUS_PERCENTAGE]

theorem HALF_val : HALF.val = 1 / 2 := by
  norm_num [Q.val, HALF]

/-! ### Preservation of non-negative balances (one step per operation) -/

theorem grant_mutation_nonneg2 (g : Q) {a : Account}
    (ha : 0 ≤ a.active) (hr : 0 ≤ a.reserved)
    (hg : ¬ Q.ble (Q.qmin g (Q.ofInt a.active)) (Q.ofInt 0) = true) :
    0 ≤ (Q.sub (Q.ofInt a.active) (Q.qmin g (Q.ofInt a.active))).toInt ∧
    0 ≤ (Q.add (Q.ofInt a.reserved) (Q.qmin g (Q.ofInt a.active))).toInt := by
  have ha' : (0 : ℚ) ≤ (a.active : ℚ) := by exact_mod_cast ha
  have hr' : (0 : ℚ) ≤ (a.reserved : ℚ) := by exact_mod_cast hr
  have hpos : 0 < (Q.qmin g (Q.ofInt a.active)).val := by
    by_contra hc
    push_neg at hc
    refine hg ((Q.ble_iff _ _).mpr ?_)
    rw [Q.val_ofInt]
    exact_mod_cast hc
  constructor
  · apply Q.toInt_nonneg
    simp only [Q.val_sub, Q.val_ofInt, Q.val_qmin, sub_nonneg]
    exact min_le_right _ _
  · apply Q.toInt_nonneg
    simp only [Q.val_add, Q.val_ofInt]
    linarith

theorem reserveAuto_nonneg (ctx : Wctx) (oid : List Char) (promo : Bool)
    (total disc : Q) {a : Account} (ha : 0 ≤ a.active) (hr : 0 ≤ a.reserved) :
    0 ≤ (handle_order_reservation ctx oid promo total disc a).account.active ∧
    0 ≤ (handle_order_reservation ctx oid promo total disc a).account.reserved := by
  simp only [handle_order_reservation]
  split_ifs with h1 h2 h3 <;> try exact ⟨ha, hr⟩
  exact grant_mutation_nonneg2 disc ha hr h2

theorem reserveManual_nonneg (ctx : Wctx) (oid lid : List Char)
    (total cd req : Q) {a : Account} (ha : 0 ≤ a.active) (hr : 0 ≤ a.reserved) :
    0 ≤ (handle_lead_bonus_reservation ctx oid lid total cd req a).account.active ∧
    0 ≤ (handle_lead_bonus_reservation ctx oid lid total cd req a).account.reserved := by
  simp only [handle_lead_bonus_reservation]
  split_ifs <;> try exact ⟨ha, hr⟩
  all_goals exact grant_mutation_nonneg2 _ ha hr (by assumption)

theorem complete_nonneg (ctx : Wctx) (oid : List Char) (total disc : Q)
    {a : Account} (htotal : 0 ≤ total.val)
    (ha : 0 ≤ a.active) (hr : 0 ≤ a.reserved) :
    0 ≤ (handle_order_completion ctx oid total disc a).account.active ∧
    0 ≤ (handle_order_completion ctx oid total disc a).account.reserved := by
  simp only [handle_order_completion]
  split_ifs with h1
  · exact ⟨ha, hr⟩
  · constructor
    · apply Q.toInt_nonneg
      simp only [Q.val_add, Q.val_ofInt, Q.val_mul, BONUS_PERCENTAGE_val]
      have ha' : (0 : ℚ) ≤ (a.active : ℚ) := by exact_mod_cast ha
      nlinarith
    · apply Q.toInt_nonneg
      simp only [Q.val_qmax, Q.val_ofInt, Int.cast_zero]
      exact le_max_left _ _

theorem cancel_nonneg (ctx : Wctx) (oid : List Char) (used total : Q)
    {a : Account} (hused : 0 ≤ used.val)
    (ha : 0 ≤ a.active) (hr : 0 ≤ a.reserved) :
    0 ≤ (handle_order_cancellation_by_client_id ctx oid used total a).account.active ∧
    0 ≤ (handle_order_cancellation_by_client_id ctx oid used total a).account.reserved := by
  simp only [handle_order_cancellation_by_client_id]
  have ha' : (0 : ℚ) ≤ (a.active : ℚ) := by exact_mod_cast ha
  have hr' : (0 : ℚ) ≤ (a.reserved : ℚ) := by exact_mod_cast hr
  have hres : 0 ≤ (match find_reserved_amount_for_order a.history oid with
      | some n => Q.ofNat n
      | none => used : Q).val := by
    rcases find_reserved_amount_for_order a.history oid with _ | n
    · exact hused
    · rw [Q.val_ofNat]
      positivity
  set resv : Q := (match find_reserved_amount_for_order a.history oid with
    | some n => Q.ofNat n
    | none => used : Q) with hresv
  split_ifs with h1
  · exact ⟨ha, hr⟩
  · constructor
    · apply Q.toInt_nonneg
      simp only [Q.val_add, Q.val_ofInt, Q.val_qmin]
      have : 0 ≤ min resv.val ((a.reserved : ℤ) : ℚ) := le_min hres hr'
      linarith
    · apply Q.toInt_nonneg
      simp only [Q.val_sub, Q.val_ofInt, Q.val_qmin, sub_nonneg]
      exact min_le_right _ _

theorem sweep_shape (ctx : Wctx) (now : ℤ) (ts : List Char) (a : Account) :
    ((check_bonus_expiry ctx now ts a).2.active = a.active ∨
      (check_bonus_expiry ctx now ts a).2.active = 0) ∧
    (check_bonus_expiry ctx now ts a).2.reserved = a.reserved := by
  unfold check_bonus_expiry
  rcases he : a.expiry with _ | d
  · simp only [he]
    split_ifs <;> exact ⟨Or.inl rfl, rfl⟩
  · simp only [he]
    split_ifs <;> first
      | exact ⟨Or.inl rfl, rfl⟩
      | exact ⟨Or.inr rfl, rfl⟩

theorem applyOp_nonneg (op : Op) (a : Account) (hv : OpValid op)
    (ha : 0 ≤ a.active) (hr : 0 ≤ a.reserved) :
    0 ≤ (applyOp op a).active ∧ 0 ≤ (applyOp op a).reserved := by
  cases op with
  | reserveAuto ctx oid promo total disc =>
    exact reserveAuto_nonneg ctx oid promo total disc ha hr
  | reserveManual ctx oid lid total cd req =>
    exact reserveManual_nonneg ctx oid lid total cd req ha hr
  | complete ctx oid total disc =>
    exact complete_nonneg ctx oid total disc hv.1 ha hr
  | cancel ctx oid used total =>
    exact cancel_nonneg ctx oid used total hv.1 ha hr
  | sweep ctx now ts =>
    obtain ⟨hact, hres⟩ := sweep_shape ctx now ts a
    simp only [applyOp]
    constructor
    · rcases hact with h | h
      · rw [h]; exact ha
      · rw [h]
    · rw [hres]; exact hr

theorem runOps_nonneg (ops : List Op) (hv : ∀ op ∈ ops, OpValid op) :
    0 ≤ (runOps ops).active ∧ 0 ≤ (runOps ops).reserved := by
  have general :
      ∀ (l : List Op) (a : Account), (∀ op ∈ l, OpValid op) →
        0 ≤ a.active → 0 ≤ a.reserved →
        0 ≤ (List.foldl (fun a op => applyOp op a) a l).active ∧
        0 ≤ (List.foldl (fun a op => applyOp op a) a l).reserved := by
    intro l
    induction l with
    | nil => intro a _ ha hr; exact ⟨ha, hr⟩
    | cons op rest ih =>
      intro a hval ha hr
      have hstep := applyOp_nonneg op a (hval op (List.mem_cons_self op rest)) ha hr
      exact ih (applyOp op a)
        (fun o ho => hval o (List.mem_cons_of_mem op ho)) hstep.1 hstep.2
  exact general ops zeroAccount hv (le_refl 0) (le_refl 0)

/-! ### Shape lemmas for the accrual-lambda logger -/

theorem joinNL_cons_exists (e : List Char) (ls : List (List Char)) :
    ∃ rest, joinNL (e :: ls) = e ++ rest := by
  cases ls with
  | nil => exact ⟨[], by simp [joinNL]⟩
  | cons l ls => exact ⟨'\n' :: joinNL (l :: ls), rfl⟩

theorem ltk_newHistory_append (ctx : Wctx) (orderRef : List Char) (bonus : Q)
    (oldB newB : ℤ) (total : Option Q) (history : List Char)
    (hdup : infixB ('#' :: orderRef) history = false)
    (hw : ctx.historyWriteOk = true) :
    ∃ rest,
      (log_transaction_in_keycrm ctx orderRef bonus oldB newB total
        history).newHistory
      = ltkEntry ctx orderRef bonus oldB newB total ++ rest := by
  unfold log_transaction_in_keycrm
  rw [hdup]
  simp only [Bool.false_eq_true, if_false, hw, if_true]
  set entry := ltkEntry ctx orderRef bonus oldB newB total with he
  set ls := cleanLines history with hls
  by_cases h10 : (entry :: ls).length > 10
  · simp only [h10, if_true, List.take_succ_cons]
    by_cases h1000 : (joinNL (entry :: List.take 9 ls)).length > 1000
    · simp only [h1000, if_true, List.take_succ_cons]
      obtain ⟨r, hr⟩ := joinNL_cons_exists entry (List.take 6 (List.take 9 ls))
      exact ⟨r ++ "\n...".toList, by rw [hr, List.append_assoc]⟩
    · simp only [h1000, if_false]
      exact joinNL_cons_exists entry (List.take 9 ls)
  · simp only [h10, if_false]
    by_cases h1000 : (joinNL (entry :: ls)).length > 1000
    · simp only [h1000, if_true, List.take_succ_cons]
      obtain ⟨r, hr⟩ := joinNL_cons_exists entry (List.take 6 ls)
      exact ⟨r ++ "\n...".toList, by rw [hr, List.append_assoc]⟩
    · simp only [h1000, if_false]
      exact joinNL_cons_exists entry ls

theorem pyAbs_ofInt_neg_toInt (x : ℤ) (hx : 0 ≤ x) :
    (Q.pyAbs (Q.ofInt (-x))).toInt = x := by
  unfold Q.pyAbs Q.ofInt Q.toInt
  simp [abs_neg, abs_of_nonneg hx]

/-- The `used` segment of the expiry entry is `-<previous balance>` and
occurs verbatim inside the entry. -/
theorem ltkEntry_expired_used (ctx : Wctx) (orderRef : List Char) (x : ℤ)
    (hx : 0 < x) :
    ('-' :: intToChars x) <:+:
      ltkEntry ctx orderRef (Q.ofInt (-x)) x 0 none := by
  unfold ltkEntry
  have hble : Q.ble (Q.ofInt 0) (Q.ofInt (-x)) = false := by
    rcases hb : Q.ble (Q.ofInt 0) (Q.ofInt (-x)) with _ | _
    · rfl
    · have := (Q.ble_iff _ _).mp hb
      rw [Q.val_ofInt, Q.val_ofInt] at this
      have : (0 : ℚ) ≤ -(x : ℚ) := by exact_mod_cast this
      have hx' : (0 : ℚ) < (x : ℚ) := by exact_mod_cast hx
      linarith
  rw [hble]
  simp only [Bool.false_eq_true, if_false]
  rw [pyAbs_ofInt_neg_toInt x (le_of_lt hx)]
  refine ⟨'🎁' :: ' ' :: ctx.dateStr ++ " | #".toList ++ orderRef
    ++ " | ".toList ++ intToChars 0 ++ "₴ | ".toList
    ++ "+0".toList ++ " | ".toList,
    " | ".toList ++ intToChars x ++ '→' :: intToChars 0
      ++ " | до ".toList ++ ctx.expiryStr, ?_⟩
  simp [List.append_assoc]

/-! ### Character classes and correctness of the decimal printer -/

theorem digitChar_isDigit (n : ℕ) : (digitChar n).isDigit = true := by
  unfold digitChar
  split_ifs <;> decide

theorem isDigit_not_ws {c : Char} (h : c.isDigit = true) :
    c.isWhitespace = false := by
  have h1 : ('0' ≤ c ∧ c ≤ '9') := by
    simpa [Char.isDigit] using h
  have n1 : c ≠ ' ' := by rintro rfl; exact absurd h1.1 (by decide)
  have n2 : c ≠ '\t' := by rintro rfl; exact absurd h1.1 (by decide)
  have n3 : c ≠ '\r' := by rintro rfl; exact absurd h1.1 (by decide)
  have n4 : c ≠ '\n' := by rintro rfl; exact absurd h1.1 (by decide)
  simp [Char.isWhitespace, n1, n2, n3, n4]

theorem isDigit_ne {c : Char} (h : c.isDigit = true) (d : Char)
    (hd : d.isDigit = false) : c ≠ d := by
  rintro rfl
  rw [h] at hd
  exact absurd hd (by decide)

theorem natToCharsAux_digits :
    ∀ (fuel n : ℕ) (acc : List Char), (∀ c ∈ acc, c.isDigit = true) →
      ∀ c ∈ natToCharsAux fuel n acc, c.isDigit = true := by
  intro fuel
  induction fuel with
  | zero => intro n acc hacc c hc; exact hacc c hc
  | succ fuel ih =>
    intro n acc hacc c hc
    unfold natToCharsAux at hc
    split_ifs at hc
    · rcases List.mem_cons.mp hc with rfl | hmem
      · exact digitChar_isDigit n
      · exact hacc c hmem
    · refine ih (n / 10) (digitChar (n % 10) :: acc) ?_ c hc
      intro d hd
      rcases List.mem_cons.mp hd with rfl | hmem
      · exact digitChar_isDigit (n % 10)
      · exact hacc d hmem

theorem natToChars_digits (n : ℕ) : ∀ c ∈ natToChars n, c.isDigit = true :=
  natToCharsAux_digits (n + 1) n [] (by intro c hc; cases hc)

/-- Mathematical decimal representation (proof-side reference for the
fuel-driven printer). -/
def natRep (n : ℕ) : List Char :=
  if n < 10 then [digitChar n] else natRep (n / 10) ++ [digitChar (n % 10)]
termination_by n
decreasing_by exact Nat.div_lt_self (by omega) (by omega)

theorem natToCharsAux_eq_natRep :
    ∀ (fuel n : ℕ) (acc : List Char), n ≤ fuel →
      natToCharsAux (fuel + 1) n acc = natRep n ++ acc := by
  intro fuel
  induction fuel with
  | zero =>
    intro n acc hn
    interval_cases n
    unfold natToCharsAux natRep
    simp
  | succ fuel ih =>
    intro n acc hn
    unfold natToCharsAux
    split_ifs with h
    · rw [natRep]
      rw [if_pos h]
      simp
    · have hdiv : n / 10 ≤ fuel := by
        have h1 : 0 < n := by omega
        have := Nat.div_lt_self h1 (show 1 < 10 by omega)
        omega
      rw [ih (n / 10) (digitChar (n % 10) :: acc) hdiv]
      conv_rhs => rw [natRep, if_neg h]
      simp

theorem natToChars_eq_natRep (n : ℕ) : natToChars n = natRep n := by
  unfold natToChars
  rw [natToCharsAux_eq_natRep n n [] (le_refl n)]
  simp

theorem natRep_ne_nil (n : ℕ) : natRep n ≠ [] := by
  rw [natRep]
  split_ifs <;> simp

theorem natToChars_ne_nil (n : ℕ) : natToChars n ≠ [] := by
  rw [natToChars_eq_natRep]
  exact natRep_ne_nil n

theorem digitChar_toNat {n : ℕ} (h : n < 10) : (digitChar n).toNat - 48 = n := by
  interval_cases n <;> decide

theorem digitsToNat_append (xs : List Char) (d : Char) :
    digitsToNat (xs ++ [d]) = 10 * digitsToNat xs + (d.toNat - 48) := by
  unfold digitsToNat
  rw [List.foldl_append]
  rfl

theorem digitsToNat_natRep (n : ℕ) : digitsToNat (natRep n) = n := by
  induction n using Nat.strong_induction_on with
  | _ n ih =>
    rw [natRep]
    split_ifs with h
    · show digitsToNat ([] ++ [digitChar n]) = n
      rw [digitsToNat_append]
      have : digitsToNat [] = 0 := rfl
      rw [this, digitChar_toNat h]
      omega
    · rw [digitsToNat_append]
      have h1 : 0 < n := by omega
      rw [ih (n / 10) (Nat.div_lt_self h1 (by omega))]
      rw [digitChar_toNat (Nat.mod_lt n (by omega))]
      omega

theorem digitsToNat_natToChars (n : ℕ) : digitsToNat (natToChars n) = n := by
  rw [natToChars_eq_natRep]
  exact digitsToNat_natRep n

/-! ### Round-trip lemmas for the history codec -/

theorem splitNL_ne_nil (l : List Char) : splitNL l ≠ [] := by
  induction l with
  | nil => simp [splitNL]
  | cons c cs ih =>
    unfold splitNL
    split_ifs
    · simp
    · rcases hsp : splitNL cs with _ | ⟨x, xs⟩
      · exact absurd hsp ih
      · simp

theorem splitNL_no_nl (l : List Char) (h : '\n' ∉ l) : splitNL l = [l] := by
  induction l with
  | nil => rfl
  | cons c cs ih =>
    have hc : c ≠ '\n' := fun hc => h (hc ▸ List.mem_cons_self c cs)
    have hcs : '\n' ∉ cs := fun hm => h (List.mem_cons_of_mem c hm)
    unfold splitNL
    rw [if_neg hc, ih hcs]

theorem splitNL_append (xs rest : List Char) (h : '\n' ∉ xs) :
    splitNL (xs ++ '\n' :: rest) = xs :: splitNL rest := by
  induction xs with
  | nil =>
    show splitNL ('\n' :: rest) = [] :: splitNL rest
    conv_lhs => unfold splitNL
    rw [if_pos rfl]
  | cons c cs ih =>
    have hc : c ≠ '\n' := fun hc => h (hc ▸ List.mem_cons_self c cs)
    have hcs : '\n' ∉ cs := fun hm => h (List.mem_cons_of_mem c hm)
    show splitNL (c :: (cs ++ '\n' :: rest)) = (c :: cs) :: splitNL rest
    conv_lhs => unfold splitNL
    rw [if_neg hc, ih hcs]

theorem mem_splitNL_subset (l : List Char) :
    ∀ x ∈ splitNL l, ∀ c ∈ x, c ∈ l ∧ c ≠ '\n' := by
  induction l with
  | nil =>
    intro x hx c hc
    simp [splitNL] at hx
    subst hx
    cases hc
  | cons a as ih =>
    intro x hx c hc
    unfold splitNL at hx
    split_ifs at hx with ha
    · rcases List.mem_cons.mp hx with rfl | hx'
      · cases hc
      · obtain ⟨hm, hne⟩ := ih x hx' c hc
        exact ⟨List.mem_cons_of_mem a hm, hne⟩
    · rcases hsp : splitNL as with _ | ⟨y, ys⟩
      · exact absurd hsp (splitNL_ne_nil as)
      · rw [hsp] at hx
        rcases List.mem_cons.mp hx with rfl | hx'
        · rcases List.mem_cons.mp hc with rfl | hc'
          · exact ⟨List.mem_cons_self c as, ha⟩
          · obtain ⟨hm, hne⟩ := ih y (hsp ▸ List.mem_cons_self y ys) c hc'
            exact ⟨List.mem_cons_of_mem a hm, hne⟩
        · obtain ⟨hm, hne⟩ := ih x (hsp ▸ List.mem_cons_of_mem y hx') c hc
          exact ⟨List.mem_cons_of_mem a hm, hne⟩

theorem strip_subset (l : List Char) : ∀ c ∈ strip l, c ∈ l := by
  intro c hc
  unfold strip at hc
  rw [List.mem_reverse] at hc
  have h1 := List.dropWhile_sublist (l := (l.dropWhile Char.isWhitespace).reverse)
    (p := Char.isWhitespace)
  have h2 := h1.mem hc
  rw [List.mem_reverse] at h2
  exact (List.dropWhile_sublist (l := l) (p := Char.isWhitespace)).mem h2

theorem dropWhile_head_false (p : Char → Bool) (l : List Char) :
    ∀ c, (l.dropWhile p).head? = some c → p c = false := by
  induction l with
  | nil => intro c hc; cases hc
  | cons a as ih =>
    intro c hc
    rw [List.dropWhile_cons] at hc
    split_ifs at hc with ha
    · exact ih c hc
    · rw [List.head?_cons, Option.some.injEq] at hc
      subst hc
      exact Bool.not_eq_true _ |>.mp ha

theorem dropWhile_eq_self_of_head (p : Char → Bool) (l : List Char)
    (h : ∀ c, l.head? = some c → p c = false) : l.dropWhile p = l := by
  cases l with
  | nil => rfl
  | cons a as =>
    rw [List.dropWhile_cons, if_neg]
    rw [h a rfl]
    simp

theorem dropWhile_getLast? (p : Char → Bool) (l : List Char)
    (hne : l.dropWhile p ≠ []) : (l.dropWhile p).getLast? = l.getLast? := by
  obtain ⟨s, hs⟩ := List.dropWhile_suffix (l := l) (p := p)
  conv_rhs => rw [← hs]
  rw [List.getLast?_append_of_ne_nil s hne]

theorem strip_idem (l : List Char) : strip (strip l) = strip l := by
  set u := l.dropWhile Char.isWhitespace with hu
  set v := u.reverse.dropWhile Char.isWhitespace with hv
  show strip v.reverse = v.reverse
  have hdrop1 : v.reverse.dropWhile Char.isWhitespace = v.reverse := by
    apply dropWhile_eq_self_of_head
    intro c hc
    rw [List.head?_reverse] at hc
    by_cases hvne : v = []
    · rw [hvne] at hc; cases hc
    · rw [hv] at hc
      rw [dropWhile_getLast? _ _ (hv ▸ hvne)] at hc
      rw [List.getLast?_reverse] at hc
      exact dropWhile_head_false Char.isWhitespace l c (hu ▸ hc)
  unfold strip
  rw [hdrop1, List.reverse_reverse]
  have hdrop2 : v.dropWhile Char.isWhitespace = v := by
    apply dropWhile_eq_self_of_head
    intro c hc
    exact dropWhile_head_false Char.isWhitespace u.reverse c (hv ▸ hc)
  rw [hdrop2]

theorem strip_eq_self_of_ends (l : List Char)
    (hh : ∀ c, l.head? = some c → c.isWhitespace = false)
    (hl : ∀ c, l.getLast? = some c → c.isWhitespace = false) :
    strip l = l := by
  unfold strip
  rw [dropWhile_eq_self_of_head _ _ hh]
  have : l.reverse.dropWhile Char.isWhitespace = l.reverse := by
    apply dropWhile_eq_self_of_head
    intro c hc
    rw [List.head?_reverse] at hc
    exact hl c hc
  rw [this, List.reverse_reverse]

theorem cleanLines_mem (h : List Char) :
    ∀ l ∈ cleanLines h, l ≠ [] ∧ ('\n' ∉ l) ∧ strip l = l := by
  intro l hl
  unfold cleanLines at hl
  rw [List.mem_filter] at hl
  obtain ⟨hmem, hne⟩ := hl
  rw [List.mem_map] at hmem
  obtain ⟨x, hx, rfl⟩ := hmem
  refine ⟨by simpa using hne, ?_, strip_idem x⟩
  intro hnl
  exact (mem_splitNL_subset h x hx '\n' (strip_subset x '\n' hnl)).2 rfl

theorem cleanLines_nil : cleanLines [] = [] := by decide

theorem cleanLines_joinDD (ls : List (List Char))
    (hcl : ∀ l ∈ ls, l ≠ [] ∧ ('\n' ∉ l) ∧ strip l = l) :
    cleanLines (joinDD ls) = ls := by
  induction ls with
  | nil => exact cleanLines_nil
  | cons l ls ih =>
    obtain ⟨hne, hnl, hstrip⟩ := hcl l (List.mem_cons_self l ls)
    cases ls with
    | nil =>
      show cleanLines l = [l]
      unfold cleanLines
      rw [splitNL_no_nl l hnl]
      simp [hstrip, hne]
    | cons l2 ls2 =>
      have hjoin : joinDD (l :: l2 :: ls2) = l ++ '\n' :: '\n' :: joinDD (l2 :: ls2) := rfl
      rw [hjoin]
      unfold cleanLines
      rw [splitNL_append l ('\n' :: joinDD (l2 :: ls2)) hnl]
      have hsplit2 : splitNL ('\n' :: joinDD (l2 :: ls2))
          = [] :: splitNL (joinDD (l2 :: ls2)) := by
        conv_lhs => unfold splitNL
        rw [if_pos rfl]
      rw [hsplit2]
      simp only [List.map_cons, List.filter_cons]
      rw [hstrip]
      have hstrip_nil : strip ([] : List Char) = [] := rfl
      rw [hstrip_nil]
      simp only [hne, decide_not]
      have ihl := ih (fun x hx => hcl x (List.mem_cons_of_mem l hx))
      unfold cleanLines at ihl
      simp only [decide_not] at ihl
      simp [ihl, hne]

/-! ### Leftmost-match lemmas for the reserve regex -/

theorem searchRez_cons_not (c : Char) (cs : List Char)
    (h : rezChars.isPrefixOf (c :: cs) = false) :
    searchRez (c :: cs) = searchRez cs := by
  conv_lhs => unfold searchRez
  rw [h]
  simp

theorem searchRez_found (post : List Char) (v : ℕ)
    (hp : parseRezTail post = some v) :
    searchRez (rezChars ++ post) = some v := by
  show searchRez ('р' :: (['е', 'з', 'е', 'р', 'в'] ++ post)) = some v
  conv_lhs => unfold searchRez
  have hpf : rezChars.isPrefixOf
      ('р' :: (['е', 'з', 'е', 'р', 'в'] ++ post)) = true := by
    rw [List.isPrefixOf_iff_prefix]
    exact ⟨post, by simp [rezChars]⟩
  rw [hpf]
  have hdrop : List.drop rezChars.length
      ('р' :: (['е', 'з', 'е', 'р', 'в'] ++ post)) = post := by
    show List.drop rezChars.length (rezChars ++ post) = post
    exact List.drop_left rezChars post
  simp only [if_true, hdrop, hp]

theorem searchRez_concat (pre post : List Char) (hz : 'з' ∉ pre) :
    searchRez (pre ++ (rezChars ++ post)) = searchRez (rezChars ++ post) := by
  induction pre with
  | nil => rw [List.nil_append]
  | cons c pre' ih =>
    have hz' : 'з' ∉ pre' := fun hm => hz (List.mem_cons_of_mem c hm)
    have hc : c ≠ 'з' := fun he => hz (he ▸ List.mem_cons_self c pre')
    rw [List.cons_append]
    have hnp : rezChars.isPrefixOf (c :: (pre' ++ (rezChars ++ post))) = false := by
      by_contra hb
      have hb' : rezChars <+: (c :: (pre' ++ (rezChars ++ post))) := by
        rw [← List.isPrefixOf_iff_prefix]
        rcases hx : rezChars.isPrefixOf (c :: (pre' ++ (rezChars ++ post)))
        · exact absurd hx hb
        · rfl
      obtain ⟨t, ht⟩ := hb'
      have h2 : (c :: (pre' ++ (rezChars ++ post)))[2]? = some 'з' := by
        rw [← ht]
        rfl
      cases pre' with
      | nil =>
        have h2' : (c :: (([] : List Char) ++ (rezChars ++ post)))[2]?
            = some 'е' := rfl
        rw [h2'] at h2
        exact absurd h2 (by decide)
      | cons d pre'' =>
        cases pre'' with
        | nil =>
          have h2' : (c :: (([d] : List Char) ++ (rezChars ++ post)))[2]?
              = some 'р' := rfl
          rw [h2'] at h2
          exact absurd h2 (by decide)
        | cons e rest =>
          have h2' : (c :: ((d :: e :: rest) ++ (rezChars ++ post)))[2]?
              = some e := by simp
          rw [h2'] at h2
          have he : e = 'з' := Option.some.inj h2
          exact hz' (he ▸ List.mem_cons_of_mem d (List.mem_cons_self e rest))
    rw [searchRez_cons_not c _ hnp]
    exact ih hz'

theorem takeWhile_append_all (p : Char → Bool) (xs ys : List Char)
    (hxs : ∀ c ∈ xs, p c = true)
    (hy : ∀ c, ys.head? = some c → p c = false) :
    (xs ++ ys).takeWhile p = xs := by
  induction xs with
  | nil =>
    cases ys with
    | nil => rfl
    | cons y ys' =>
      rw [List.nil_append, List.takeWhile_cons]
      rw [hy y rfl]
      simp
  | cons x xs' ih =>
    rw [List.cons_append, List.takeWhile_cons]
    rw [hxs x (List.mem_cons_self x xs')]
    rw [if_pos rfl]
    rw [ih (fun c hc => hxs c (List.mem_cons_of_mem x hc))]

theorem parseRezTail_digits (u : ℕ) (rest : List Char)
    (hrest : ∀ c, rest.head? = some c → c.isDigit = false) :
    parseRezTail (' ' :: (natToChars u ++ rest)) = some u := by
  have hhead : ∀ c, (natToChars u ++ rest).head? = some c →
      Char.isWhitespace c = false := by
    intro c hc
    rcases hn : natToChars u with _ | ⟨d, ds⟩
    · exact absurd hn (natToChars_ne_nil u)
    · rw [hn, List.cons_append, List.head?_cons, Option.some.injEq] at hc
      rw [← hc]
      exact isDigit_not_ws (natToChars_digits u d (hn ▸ List.mem_cons_self d ds))
  have hdrop : List.dropWhile Char.isWhitespace (' ' :: (natToChars u ++ rest))
      = natToChars u ++ rest := by
    rw [List.dropWhile_cons, if_pos (by decide)]
    exact dropWhile_eq_self_of_head _ _ hhead
  simp only [parseRezTail]
  rw [if_pos (by decide : (' ' : Char).isWhitespace = true)]
  rw [hdrop]
  rw [takeWhile_append_all Char.isDigit (natToChars u) rest
    (natToChars_digits u) hrest]
  rw [if_neg (natToChars_ne_nil u)]
  rw [digitsToNat_natToChars]

/-! ### Bounding the ledger total after one logged entry -/

/-- Sum of all reserve amounts the scan reads for an order. -/
def findAmtsSum (target h : List Char) : ℕ :=
  ((cleanLines h).filterMap (reserveAmountInLine target)).sum

theorem find_getD_eq (h target : List Char) :
    (find_reserved_amount_for_order h target).getD 0 = findAmtsSum target h := by
  by_cases h1 : h = []
  · subst h1
    simp [find_reserved_amount_for_order, findAmtsSum, cleanLines_nil]
  · unfold find_reserved_amount_for_order findAmtsSum
    rw [if_neg h1]
    by_cases h2 : (cleanLines h).filterMap (reserveAmountInLine target) = []
    · simp [h2]
    · simp [h2]

theorem filterMap_cons_sum (f : List Char → Option ℕ) (e : List Char)
    (ls : List (List Char)) :
    (List.filterMap f (e :: ls)).sum = (f e).getD 0 + (List.filterMap f ls).sum := by
  rw [List.filterMap_cons]
  cases f e <;> simp

theorem sum_le_of_sublist {l1 l2 : List ℕ} (h : l1.Sublist l2) :
    l1.sum ≤ l2.sum :=
  h.sum_le_sum (fun a _ => Nat.zero_le a)

theorem reserveAmountInLine_getD_le (target line : List Char) (v : ℕ)
    (hs : searchRez line = some v) :
    (reserveAmountInLine target line).getD 0 ≤ v := by
  unfold reserveAmountInLine
  split_ifs <;> simp [hs]

theorem reserveAmountInLine_no_lock (target line : List Char)
    (h1 : line.contains '🔒' = false) (h2 : line.contains '🔐' = false) :
    reserveAmountInLine target line = none := by
  unfold reserveAmountInLine
  split_ifs with hi hl
  · exact absurd hl (by rw [h1, h2]; simp)
  · rfl
  · rfl

theorem reserveAmountInLine_dots (target : List Char) :
    reserveAmountInLine target ['.', '.', '.'] = none :=
  reserveAmountInLine_no_lock target ['.', '.', '.'] (by decide) (by decide)

theorem joinDD_append_one (xs : List (List Char)) (hne : xs ≠ [])
    (y : List Char) :
    joinDD xs ++ '\n' :: '\n' :: y = joinDD (xs ++ [y]) := by
  induction xs with
  | nil => exact absurd rfl hne
  | cons l ls ih =>
    cases ls with
    | nil => rfl
    | cons l2 ls2 =>
      show (l ++ '\n' :: '\n' :: joinDD (l2 :: ls2)) ++ '\n' :: '\n' :: y
        = l ++ '\n' :: '\n' :: joinDD ((l2 :: ls2) ++ [y])
      rw [← ih (by simp)]
      simp [List.append_assoc]

theorem findAmtsSum_sublist_bound (target e h : List Char)
    (ls : List (List Char)) (hsub : ls.Sublist (e :: cleanLines h)) :
    (List.filterMap (reserveAmountInLine target) ls).sum
      ≤ (reserveAmountInLine target e).getD 0 + findAmtsSum target h := by
  calc (List.filterMap (reserveAmountInLine target) ls).sum
      ≤ (List.filterMap (reserveAmountInLine target) (e :: cleanLines h)).sum :=
        sum_le_of_sublist (hsub.filterMap _)
    _ = (reserveAmountInLine target e).getD 0 + findAmtsSum target h := by
        rw [filterMap_cons_sum]
        rfl

theorem findAmtsSum_joinDD_of_sublist (target e h : List Char)
    (he : e ≠ [] ∧ ('\n' ∉ e) ∧ strip e = e)
    (ls : List (List Char)) (hsub : ls.Sublist (e :: cleanLines h)) :
    findAmtsSum target (joinDD ls)
      ≤ (reserveAmountInLine target e).getD 0 + findAmtsSum target h := by
  have hclean : ∀ l ∈ ls, l ≠ [] ∧ ('\n' ∉ l) ∧ strip l = l := by
    intro l hl
    rcases List.mem_cons.mp (hsub.subset hl) with rfl | hmem
    · exact he
    · exact cleanLines_mem h l hmem
  unfold findAmtsSum
  rw [cleanLines_joinDD ls hclean]
  exact findAmtsSum_sublist_bound target e h ls hsub

theorem findAmtsSum_joinDD_dots_of_sublist (target e h : List Char)
    (he : e ≠ [] ∧ ('\n' ∉ e) ∧ strip e = e)
    (ls : List (List Char)) (hne : ls ≠ [])
    (hsub : ls.Sublist (e :: cleanLines h)) :
    findAmtsSum target (joinDD ls ++ "\n\n...".toList)
      ≤ (reserveAmountInLine target e).getD 0 + findAmtsSum target h := by
  have hclean : ∀ l ∈ ls ++ ["...".toList],
      l ≠ [] ∧ ('\n' ∉ l) ∧ strip l = l := by
    intro l hl
    rcases List.mem_append.mp hl with hl1 | hl2
    · rcases List.mem_cons.mp (hsub.subset hl1) with rfl | hmem
      · exact he
      · exact cleanLines_mem h l hmem
    · rw [List.mem_singleton] at hl2
      subst hl2
      exact ⟨by decide, by decide, by decide⟩
  have hjoin : joinDD ls ++ "\n\n...".toList = joinDD (ls ++ ["...".toList]) :=
    joinDD_append_one ls hne "...".toList
  unfold findAmtsSum
  rw [hjoin, cleanLines_joinDD _ hclean]
  rw [List.filterMap_append]
  have hdots : List.filterMap (reserveAmountInLine target) ["...".toList] = [] := by
    simp [reserveAmountInLine_dots]
  rw [hdots, List.append_nil]
  exact findAmtsSum_sublist_bound target e h ls hsub

set_option maxHeartbeats 1000000 in
theorem log_find_le (ctx : Wctx) (oid : List Char) (lead : Option (List Char))
    (t : OpType) (bonus used : Q) (oldB newB : ℤ) (total : Q)
    (h target : List Char)
    (he : logEntry ctx oid lead t bonus used oldB newB total ≠ [] ∧
      ('\n' ∉ logEntry ctx oid lead t bonus used oldB newB total) ∧
      strip (logEntry ctx oid lead t bonus used oldB newB total)
        = logEntry ctx oid lead t bonus used oldB newB total) :
    findAmtsSum target
        (log_transaction ctx oid lead t bonus used oldB newB total h).newHistory
      ≤ (reserveAmountInLine target
          (logEntry ctx oid lead t bonus used oldB newB total)).getD 0
        + findAmtsSum target h := by
  set e := logEntry ctx oid lead t bonus used oldB newB total with hedef
  unfold log_transaction
  rw [← hedef]
  dsimp only
  set ls0 := e :: cleanLines h with hls0
  have hsub_id : ls0.Sublist (e :: cleanLines h) := by
    rw [hls0]
  have hsub50 : (ls0.take 50).Sublist (e :: cleanLines h) :=
    (List.take_sublist 50 ls0).trans hsub_id
  have hsub40a : ((ls0.take 50).take 40).Sublist (e :: cleanLines h) :=
    (List.take_sublist 40 (ls0.take 50)).trans hsub50
  have hsub40b : (ls0.take 40).Sublist (e :: cleanLines h) :=
    (List.take_sublist 40 ls0).trans hsub_id
  have hne50 : ls0.take 50 ≠ [] := by rw [hls0]; simp
  have hne40a : (ls0.take 50).take 40 ≠ [] := by rw [hls0]; simp
  have hne40b : ls0.take 40 ≠ [] := by rw [hls0]; simp
  split_ifs <;>
    first
      | exact Nat.le_add_left _ _
      | exact findAmtsSum_joinDD_of_sublist target e h he _ hsub_id
      | exact findAmtsSum_joinDD_of_sublist target e h he _ hsub50
      | exact findAmtsSum_joinDD_dots_of_sublist target e h he _ hne40a hsub40a
      | exact findAmtsSum_joinDD_dots_of_sublist target e h he _ hne40b hsub40b

/-! ### The manual-reserve ledger entry, decomposed around the regex -/

theorem digits_not_mem {s : List Char} (hs : ∀ x ∈ s, x.isDigit = true)
    {d : Char} (hd : d.isDigit = false) : d ∉ s := by
  intro hmem
  have := hs d hmem
  rw [hd] at this
  exact absurd this (by decide)

theorem intToChars_chars (z : ℤ) :
    ∀ c ∈ intToChars z, c.isDigit = true ∨ c = '-' := by
  intro c hc
  unfold intToChars at hc
  split_ifs at hc
  · rcases List.mem_cons.mp hc with rfl | hmem
    · exact Or.inr rfl
    · exact Or.inl (natToChars_digits _ c hmem)
  · exact Or.inl (natToChars_digits _ c hc)

theorem intToChars_not_mem (z : ℤ) {d : Char} (hd : d.isDigit = false)
    (hdash : d ≠ '-') : d ∉ intToChars z := by
  intro hmem
  rcases intToChars_chars z d hmem with h | h
  · rw [hd] at h
    exact absurd h (by decide)
  · exact hdash h

theorem intToChars_nonneg_eq (g : ℤ) (hg : 0 ≤ g) :
    intToChars g = natToChars g.toNat := by
  unfold intToChars
  rw [if_neg (by omega)]

theorem pyAbs_toInt_nonneg (q : Q) : 0 ≤ (Q.pyAbs q).toInt := by
  unfold Q.pyAbs Q.toInt
  exact Int.tdiv_nonneg (abs_nonneg q.num) (Int.ofNat_nonneg q.den)

/-- Literal characters the identifier can contribute besides digits. -/
def identLit : List Char := ['#', '(', 'Л', 'і', 'д', ' ', ')']

theorem logIdentifier_subset (oid lid : List Char) :
    ∀ c ∈ logIdentifier oid (some lid), c ∈ oid ∨ c ∈ lid ∨ c ∈ identLit := by
  have hlit1 : ∀ x ∈ "Лід #".toList, x ∈ identLit := by decide
  have hlit2 : ∀ x ∈ " (Лід #".toList, x ∈ identLit := by decide
  intro c hc
  simp only [logIdentifier] at hc
  by_cases h : oid = []
  · rw [if_pos h, if_pos rfl] at hc
    rcases List.mem_append.mp hc with hc | hc
    · exact Or.inr (Or.inr (hlit1 c hc))
    · exact Or.inr (Or.inl hc)
  · rw [if_neg h, if_neg (by simp)] at hc
    rcases List.mem_append.mp hc with hc1 | hc
    rcases List.mem_append.mp hc1 with hc2 | hc
    rcases List.mem_append.mp hc2 with hc3 | hc
    · rcases List.mem_cons.mp hc3 with rfl | hc
      · exact Or.inr (Or.inr (by decide))
      · exact Or.inl hc
    · exact Or.inr (Or.inr (hlit2 c hc))
    · exact Or.inr (Or.inl hc)
    · rw [List.mem_singleton] at hc
      subst hc
      exact Or.inr (Or.inr (by decide))

theorem logIdentifier_not_mem (oid lid : List Char) {d : Char}
    (hoid : ∀ c ∈ oid, c.isDigit = true) (hlid : ∀ c ∈ lid, c.isDigit = true)
    (hd : d.isDigit = false) (hlit : d ∉ identLit) :
    d ∉ logIdentifier oid (some lid) := by
  intro hmem
  rcases logIdentifier_subset oid lid d hmem with h | h | h
  · exact digits_not_mem hoid hd h
  · exact digits_not_mem hlid hd h
  · exact hlit h

theorem logOperationStr_manual (bonus used : Q) :
    logOperationStr OpType.manual_reserve bonus used
      = "ручний ".toList ++ rezChars ++ (' ' :: intToChars (Q.pyAbs used).toInt) := by
  unfold logOperationStr logOperations joinCommaSp
  simp

/-- Everything preceding the `резерв` token in a manual-reserve entry. -/
def manualPre (ctx : Wctx) (oid lid : List Char) (total : Q) : List Char :=
  '🔐' :: ' ' :: ctx.dateStr ++ " | ".toList ++ logIdentifier oid (some lid)
    ++ " | ".toList ++ intToChars total.toInt ++ "₴ | ".toList
    ++ "ручний ".toList

/-- Everything following the `резерв` token in a manual-reserve entry. -/
def manualPost (ctx : Wctx) (grant : Q) (oldB newB : ℤ) : List Char :=
  ' ' :: intToChars (Q.pyAbs grant).toInt
    ++ " | ".toList ++ intToChars oldB ++ '→' :: intToChars newB
    ++ " | до ".toList ++ ctx.expiryStr

theorem manual_entry_eq (ctx : Wctx) (oid lid : List Char) (grant : Q)
    (oldB newB : ℤ) (total : Q) :
    logEntry ctx oid (some lid) OpType.manual_reserve (Q.ofInt 0) grant
      oldB newB total
      = manualPre ctx oid lid total
        ++ (rezChars ++ manualPost ctx grant oldB newB) := by
  unfold logEntry manualPre manualPost
  rw [logOperationStr_manual]
  simp [opEmoji, List.append_assoc]

theorem manualPre_no_z (ctx : Wctx) (oid lid : List Char) (total : Q)
    (hdz : 'з' ∉ ctx.dateStr)
    (hoid : ∀ c ∈ oid, c.isDigit = true) (hlid : ∀ c ∈ lid, c.isDigit = true) :
    'з' ∉ manualPre ctx oid lid total := by
  unfold manualPre
  intro hmem
  rcases List.mem_cons.mp hmem with h | hmem
  · exact absurd h (by decide)
  rcases List.mem_cons.mp hmem with h | hmem
  · exact absurd h (by decide)
  rcases List.mem_append.mp hmem with hmem | h
  rcases List.mem_append.mp hmem with hmem | h
  rcases List.mem_append.mp hmem with hmem | h
  rcases List.mem_append.mp hmem with hmem | h
  rcases List.mem_append.mp hmem with hmem | h
  rcases List.mem_append.mp hmem with h | h
  · exact hdz h
  · exact absurd h (by decide)
  · exact logIdentifier_not_mem oid lid hoid hlid (by decide) (by decide) h
  · exact absurd h (by decide)
  · exact intToChars_not_mem total.toInt (by decide) (by decide) h
  · exact absurd h (by decide)
  · exact absurd h (by decide)

theorem searchRez_manual_entry (ctx : Wctx) (oid lid : List Char) (grant : Q)
    (oldB newB : ℤ) (total : Q)
    (hdz : 'з' ∉ ctx.dateStr)
    (hoid : ∀ c ∈ oid, c.isDigit = true) (hlid : ∀ c ∈ lid, c.isDigit = true) :
    searchRez (logEntry ctx oid (some lid) OpType.manual_reserve (Q.ofInt 0)
        grant oldB newB total)
      = some (Q.pyAbs grant).toInt.toNat := by
  rw [manual_entry_eq]
  have hpost : manualPost ctx grant oldB newB
      = ' ' :: (natToChars (Q.pyAbs grant).toInt.toNat
          ++ (" | ".toList ++ intToChars oldB ++ '→' :: intToChars newB
            ++ " | до ".toList ++ ctx.expiryStr)) := by
    unfold manualPost
    rw [intToChars_nonneg_eq _ (pyAbs_toInt_nonneg grant)]
    simp [List.append_assoc]
  rw [hpost]
  rw [searchRez_concat _ _ (manualPre_no_z ctx oid lid total hdz hoid hlid)]
  exact searchRez_found _ _ (parseRezTail_digits _ _ (by
    intro c hc
    have : (" | ".toList ++ intToChars oldB ++ '→' :: intToChars newB
        ++ " | до ".toList ++ ctx.expiryStr).head? = some ' ' := rfl
    rw [this, Option.some.injEq] at hc
    rw [← hc]
    decide))

theorem manualPre_no_nl (ctx : Wctx) (oid lid : List Char) (total : Q)
    (hdn : '\n' ∉ ctx.dateStr)
    (hoid : ∀ c ∈ oid, c.isDigit = true) (hlid : ∀ c ∈ lid, c.isDigit = true) :
    '\n' ∉ manualPre ctx oid lid total := by
  unfold manualPre
  intro hmem
  rcases List.mem_cons.mp hmem with h | hmem
  · exact absurd h (by decide)
  rcases List.mem_cons.mp hmem with h | hmem
  · exact absurd h (by decide)
  rcases List.mem_append.mp hmem with hmem | h
  rcases List.mem_append.mp hmem with hmem | h
  rcases List.mem_append.mp hmem with hmem | h
  rcases List.mem_append.mp hmem with hmem | h
  rcases List.mem_append.mp hmem with hmem | h
  rcases List.mem_append.mp hmem with h | h
  · exact hdn h
  · exact absurd h (by decide)
  · exact logIdentifier_not_mem oid lid hoid hlid (by decide) (by decide) h
  · exact absurd h (by decide)
  · exact intToChars_not_mem total.toInt (by decide) (by decide) h
  · exact absurd h (by decide)
  · exact absurd h (by decide)

theorem manualPost_no_nl (ctx : Wctx) (grant : Q) (oldB newB : ℤ)
    (hen : '\n' ∉ ctx.expiryStr) :
    '\n' ∉ manualPost ctx grant oldB newB := by
  unfold manualPost
  intro hmem
  rcases List.mem_append.mp hmem with hmem | h
  rcases List.mem_append.mp hmem with hmem | h
  rcases List.mem_append.mp hmem with hmem | h
  rcases List.mem_append.mp hmem with hmem | h
  rcases List.mem_append.mp hmem with h | h
  · rcases List.mem_cons.mp h with h | h
    · exact absurd h (by decide)
    · exact intToChars_not_mem _ (by decide) (by decide) h
  · exact absurd h (by decide)
  · exact intToChars_not_mem _ (by decide) (by decide) h
  · rcases List.mem_cons.mp h with h | h
    · exact absurd h (by decide)
    · exact intToChars_not_mem _ (by decide) (by decide) h
  · exact absurd h (by decide)
  · exact hen h

theorem manual_entry_clean (ctx : Wctx) (oid lid : List Char) (grant : Q)
    (oldB newB : ℤ) (total : Q)
    (hdn : '\n' ∉ ctx.dateStr) (hen : '\n' ∉ ctx.expiryStr)
    (hexp : ctx.expiryStr ≠ [])
    (hlast : ∀ c, ctx.expiryStr.getLast? = some c → c.isWhitespace = false)
    (hoid : ∀ c ∈ oid, c.isDigit = true) (hlid : ∀ c ∈ lid, c.isDigit = true) :
    logEntry ctx oid (some lid) OpType.manual_reserve (Q.ofInt 0) grant
        oldB newB total ≠ [] ∧
    ('\n' ∉ logEntry ctx oid (some lid) OpType.manual_reserve (Q.ofInt 0) grant
        oldB newB total) ∧
    strip (logEntry ctx oid (some lid) OpType.manual_reserve (Q.ofInt 0) grant
        oldB newB total)
      = logEntry ctx oid (some lid) OpType.manual_reserve (Q.ofInt 0) grant
        oldB newB total := by
  have heq := manual_entry_eq ctx oid lid grant oldB newB total
  have hpost_ne : manualPost ctx grant oldB newB ≠ [] := by
    unfold manualPost
    intro hcontra
    rw [List.append_eq_nil] at hcontra
    exact hexp hcontra.2
  have hplast : (manualPost ctx grant oldB newB).getLast?
      = ctx.expiryStr.getLast? := by
    unfold manualPost
    exact List.getLast?_append_of_ne_nil _ hexp
  have hrp_ne : rezChars ++ manualPost ctx grant oldB newB ≠ [] := by
    intro hcontra
    rw [List.append_eq_nil] at hcontra
    exact hpost_ne hcontra.2
  refine ⟨?_, ?_, ?_⟩
  · rw [heq]
    intro hcontra
    rw [List.append_eq_nil] at hcontra
    exact hrp_ne hcontra.2
  · rw [heq]
    intro hmem
    rcases List.mem_append.mp hmem with h | hmem
    · exact manualPre_no_nl ctx oid lid total hdn hoid hlid h
    rcases List.mem_append.mp hmem with h | h
    · exact absurd h (by decide)
    · exact manualPost_no_nl ctx grant oldB newB hen h
  · apply strip_eq_self_of_ends
    · intro c hc
      have hhead : (logEntry ctx oid (some lid) OpType.manual_reserve
          (Q.ofInt 0) grant oldB newB total).head? = some '🔐' := rfl
      rw [hhead, Option.some.injEq] at hc
      rw [← hc]
      decide
    · intro c hc
      rw [heq, List.getLast?_append_of_ne_nil _ hrp_ne,
        List.getLast?_append_of_ne_nil _ hpost_ne, hplast] at hc
      exact hlast c hc

set_option maxHeartbeats 1000000 in
theorem manual_cap_core (ctx : Wctx) (oid lid : List Char) (g amt total : Q)
    (oldB newB : ℤ) (h : List Char)
    (hdn : '\n' ∉ ctx.dateStr) (hdz : 'з' ∉ ctx.dateStr)
    (hen : '\n' ∉ ctx.expiryStr) (hexp : ctx.expiryStr ≠ [])
    (hlast : ∀ c, ctx.expiryStr.getLast? = some c → c.isWhitespace = false)
    (hoid : ∀ c ∈ oid, c.isDigit = true) (hlid : ∀ c ∈ lid, c.isDigit = true)
    (hga : g.val ≤ amt.val) (hg : 0 < g.val)
    (hcap : ((find_reserved_amount_for_order h oid).getD 0 : ℚ) + amt.val
      ≤ total.val * (1 / 2)) :
    ((find_reserved_amount_for_order
        (log_transaction ctx oid (some lid) OpType.manual_reserve (Q.ofInt 0)
          g oldB newB total h).newHistory oid).getD 0 : ℚ)
      ≤ total.val * (1 / 2) := by
  have hclean := manual_entry_clean ctx oid lid g oldB newB total
    hdn hen hexp hlast hoid hlid
  have hbound := log_find_le ctx oid (some lid) OpType.manual_reserve
    (Q.ofInt 0) g oldB newB total h oid hclean
  have hsearch := searchRez_manual_entry ctx oid lid g oldB newB total
    hdz hoid hlid
  have hline := reserveAmountInLine_getD_le oid _ _ hsearch
  rw [find_getD_eq] at hcap ⊢
  have h1 : findAmtsSum oid
      (log_transaction ctx oid (some lid) OpType.manual_reserve (Q.ofInt 0)
        g oldB newB total h).newHistory
      ≤ (Q.pyAbs g).toInt.toNat + findAmtsSum oid h :=
    le_trans hbound (Nat.add_le_add_right hline _)
  have h1q : ((findAmtsSum oid
      (log_transaction ctx oid (some lid) OpType.manual_reserve (Q.ofInt 0)
        g oldB newB total h).newHistory : ℕ) : ℚ)
      ≤ ((Q.pyAbs g).toInt.toNat : ℚ) + ((findAmtsSum oid h : ℕ) : ℚ) := by
    exact_mod_cast h1
  have hg0 : (0 : ℚ) ≤ g.val := le_of_lt hg
  have habs : (Q.pyAbs g).val = g.val := by
    rw [Q.val_pyAbs]
    exact abs_of_nonneg hg0
  have htoi : (Q.pyAbs g).toInt = pyInt g.val := by
    rw [Q.toInt_eq_pyInt, habs]
  have hgn : (((Q.pyAbs g).toInt.toNat : ℕ) : ℚ) ≤ g.val := by
    rw [htoi]
    have h2 : (((pyInt g.val).toNat : ℤ) : ℚ) ≤ g.val := by
      rw [Int.toNat_of_nonneg (pyInt_nonneg hg0)]
      exact pyInt_le hg0
    exact_mod_cast h2
  linarith [h1q, hgn, hga, hcap]

/-! ### Structural lemmas for the completion handler -/

theorem log_transaction_completed (ctx : Wctx) (oid : List Char)
    (lead : Option (List Char)) (bonus used : Q) (oldB newB : ℤ) (total : Q)
    (history : List Char) (hw : ctx.historyWriteOk = true) :
    (log_transaction ctx oid lead OpType.completed bonus used oldB newB total
      history).success = true ∧
    (log_transaction ctx oid lead OpType.completed bonus used oldB newB total
      history).history_updated = some true := by
  unfold log_transaction
  simp [hw]

theorem handle_order_completion_ok (ctx : Wctx) (oid : List Char)
    (total disc : Q) (a : Account) (hb : ctx.balanceWriteOk = true) :
    handle_order_completion ctx oid total disc a =
      (let resv : Q := match find_reserved_amount_for_order a.history oid with
        | some n => Q.ofNat n
        | none => disc
       let newR := (Q.qmax (Q.ofInt 0) (Q.sub (Q.ofInt a.reserved) resv)).toInt
       let newB := (Q.add (Q.ofInt a.active) (Q.mul total BONUS_PERCENTAGE)).toInt
       let lr := log_transaction ctx oid none OpType.completed
         (Q.mul total BONUS_PERCENTAGE) resv a.active newB total a.history
       ⟨200, true, some resv, some newB, some newR, some lr,
         ⟨newB, newR, some ctx.newExpiry, lr.newHistory⟩⟩) := by
  unfold handle_order_completion
  rw [if_neg (by simp [hb])]

theorem completion_newB_val (total : Q) (act : ℤ) (ht : 0 ≤ total.val)
    (ha : 0 ≤ act) :
    (Q.add (Q.ofInt act) (Q.mul total BONUS_PERCENTAGE)).toInt
      = act + ⌊total.val * (1 / 10)⌋ := by
  rw [Q.toInt_eq_pyInt]
  simp only [Q.val_add, Q.val_ofInt, Q.val_mul, BONUS_PERCENTAGE_val]
  exact pyInt_add_int act ha (by positivity)

theorem handle_cancel_ok (ctx : Wctx) (oid : List Char) (used total : Q)
    (a : Account) (hb : ctx.balanceWriteOk = true) :
    handle_order_cancellation_by_client_id ctx oid used total a =
      (let resv : Q := match find_reserved_amount_for_order a.history oid with
        | some n => Q.ofNat n
        | none => used
       let ret := Q.qmin resv (Q.ofInt a.reserved)
       let newB := (Q.add (Q.ofInt a.active) ret).toInt
       let newR := (Q.sub (Q.ofInt a.reserved) ret).toInt
       let lr := log_transaction ctx oid none OpType.cancelled (Q.ofInt 0)
         (Q.neg ret) a.active newB total a.history
       ⟨200, true, some ret, some newB, some newR, some lr,
         ⟨newB, newR, some ctx.newExpiry, lr.newHistory⟩⟩) := by
  unfold handle_order_cancellation_by_client_id
  rw [if_neg (by simp [hb])]

theorem pyInt_max_int (r n : ℤ) :
    pyInt (max 0 ((r : ℚ) - (n : ℚ))) = max 0 (r - n) := by
  have hcast : max (0 : ℚ) ((r : ℚ) - (n : ℚ)) = ((max 0 (r - n) : ℤ) : ℚ) := by
    push_cast
    rfl
  rw [hcast, pyInt_intCast]

theorem pyInt_add_min_int (a r n : ℤ) :
    pyInt ((a : ℚ) + min ((n : ℤ) : ℚ) ((r : ℤ) : ℚ)) = a + min n r := by
  have hcast : (a : ℚ) + min ((n : ℤ) : ℚ) ((r : ℤ) : ℚ)
      = ((a + min n r : ℤ) : ℚ) := by
    push_cast
    rfl
  rw [hcast, pyInt_intCast]

theorem pyInt_sub_min_int (r n : ℤ) :
    pyInt ((r : ℚ) - min ((n : ℤ) : ℚ) ((r : ℤ) : ℚ)) = r - min n r := by
  have hcast : (r : ℚ) - min ((n : ℤ) : ℚ) ((r : ℤ) : ℚ)
      = ((r - min n r : ℤ) : ℚ) := by
    push_cast
    rfl
  rw [hcast, pyInt_intCast]

/-! ### Formulas written from the spec's words, for refinement comparison -/

/-- The new reserved balance exactly as claim C5 words it:
`max(0, reserved_balance - reserved_for_order)` (no integer truncation). -/
def spec_complete_new_reserved (reserved : ℤ) (resv : ℚ) : ℚ :=
  max 0 ((reserved : ℚ) - resv)

/-- The new active balance exactly as claim C6 words it:
`active_balance + return_amount` (no integer truncation). -/
def spec_cancel_new_active (active : ℤ) (ret : ℚ) : ℚ := (active : ℚ) + ret

/-! ### Concrete data used by witnesses and counterexamples -/

/-- A fixed invocation context with both CRM writes succeeding. -/
def demoCtx : Wctx := ⟨"01.01.25 10:00".toList, "01.04.25".toList, 77, true, true⟩

/-- A context whose history write fails (balance write succeeds). -/
def failHistCtx : Wctx :=
  ⟨"01.01.25 10:00".toList, "01.04.25".toList, 77, true, false⟩

/-! ## Claims -/

/-- C1: for every account state with non-negative active and reserved
balances and non-negative monetary inputs, any single reserve,
manual-reserve, complete, cancel, or expiry-sweep operation leaves
`active_balance ≥ 0` and `reserved_balance ≥ 0`; hence both balances stay
non-negative along every sequence of such operations started from a
zero-balance account. -/
theorem C1_balances_nonneg :
    (∀ (op : Op) (a : Account), OpValid op → 0 ≤ a.active → 0 ≤ a.reserved →
      0 ≤ (applyOp op a).active ∧ 0 ≤ (applyOp op a).reserved) ∧
    (∀ ops : List Op, (∀ op ∈ ops, OpValid op) →
      0 ≤ (runOps ops).active ∧ 0 ≤ (runOps ops).reserved) :=
  ⟨applyOp_nonneg, runOps_nonneg⟩

/-- Witness for C1 at a concrete three-operation run: accrue on a completed
order, then automatically reserve against a second order, then cancel it. -/
theorem C1_balances_nonneg_witness :
    0 ≤ (runOps
      [Op.complete demoCtx "1".toList (Q.ofInt 1000) (Q.ofInt 0),
       Op.reserveAuto demoCtx "2".toList true (Q.ofInt 200) (Q.ofInt 50),
       Op.cancel demoCtx "2".toList (Q.ofInt 50) (Q.ofInt 200)]).active ∧
    0 ≤ (runOps
      [Op.complete demoCtx "1".toList (Q.ofInt 1000) (Q.ofInt 0),
       Op.reserveAuto demoCtx "2".toList true (Q.ofInt 200) (Q.ofInt 50),
       Op.cancel demoCtx "2".toList (Q.ofInt 50) (Q.ofInt 200)]).reserved :=
  C1_balances_nonneg.2 _ (by
    intro op hop
    simp only [List.mem_cons, List.not_mem_nil, or_false] at hop
    rcases hop with rfl | rfl | rfl
    · exact ⟨by norm_num [Q.val_ofInt], by norm_num [Q.val_ofInt]⟩
    · exact ⟨by norm_num [Q.val_ofInt], by norm_num [Q.val_ofInt]⟩
    · exact ⟨by norm_num [Q.val_ofInt], by norm_num [Q.val_ofInt]⟩)

/-- C3 counterexample: on the automatic path a replayed reservation is NOT a
balance no-op.  Starting from 100 active points, reserving 40 against order
1 and then replaying the same webhook leaves the ledger unchanged (the
duplicate scan fires, `history_updated = false`) yet debits the active
balance again: 100 → 60 → 20. -/
theorem C3_counterexample :
    (let a1 := (handle_order_reservation demoCtx "1".toList true (Q.ofInt 100)
        (Q.ofInt 40) ⟨100, 0, none, []⟩).account
     let o2 := handle_order_reservation demoCtx "1".toList true (Q.ofInt 100)
        (Q.ofInt 40) a1
     infixB "#1".toList a1.history = true ∧
     (o2.logRes.map (fun l => l.history_updated)) = some (some false) ∧
     o2.account.history = a1.history ∧
     o2.success = true ∧
     a1.active = 60 ∧ o2.account.active = 20 ∧
     a1.reserved = 40 ∧ o2.account.reserved = 80) := by
  decide

/-- C3 amended: only the manual path is duplicate-safe: when the validations
pass and the ledger already holds a manual-reserve entry for the order,
`handle_lead_bonus_reservation` returns success (HTTP 200,
`already_reserved`) and changes neither balance nor the ledger.  On the
automatic path the duplicate scan only skips the history write while the
balances are debited again (see the counterexample). -/
theorem C3_manual_duplicate_noop (ctx : Wctx) (oid lid : List Char)
    (total cd req : Q) (a : Account)
    (hreq : Q.ble req (Q.ofInt 0) = false)
    (htot : Q.ble total (Q.ofInt 0) = false)
    (hcap : ¬ (Q.blt (Q.mul total HALF) (Q.add cd req) = true ∧
      Q.ble (Q.sub (Q.mul total HALF) cd) (Q.ofInt 0) = true))
    (hdup : has_manual_reserve_for_order a.history oid = true) :
    (handle_lead_bonus_reservation ctx oid lid total cd req a).status = 200 ∧
    (handle_lead_bonus_reservation ctx oid lid total cd req a).success = true ∧
    (handle_lead_bonus_reservation ctx oid lid total cd req a).kind =
      ManualKind.alreadyReserved ∧
    (handle_lead_bonus_reservation ctx oid lid total cd req a).account = a := by
  simp only [handle_lead_bonus_reservation, hreq, htot, Bool.false_eq_true,
    if_false]
  by_cases hc : Q.blt (Q.mul total HALF) (Q.add cd req) = true
  · have hble : Q.ble (Q.sub (Q.mul total HALF) cd) (Q.ofInt 0) = false := by
      rcases hb : Q.ble (Q.sub (Q.mul total HALF) cd) (Q.ofInt 0) with _ | _
      · rfl
      · exact absurd ⟨hc, hb⟩ hcap
    simp [hc, hble, hdup]
  · simp [hc, hdup]

/-- Witness for the amended C3 theorem at a concrete duplicate ledger. -/
theorem C3_manual_duplicate_noop_witness :
    (handle_lead_bonus_reservation demoCtx "12".toList "7".toList
      (Q.ofInt 1000) (Q.ofInt 0) (Q.ofInt 100)
      ⟨500, 30, none, "🔐 01.01.25 09:00 | #12 (Лід #7) | 1000₴ | ручний резерв 30 | 530→500 | до 01.04.25".toList⟩).account
      = ⟨500, 30, none, "🔐 01.01.25 09:00 | #12 (Лід #7) | 1000₴ | ручний резерв 30 | 530→500 | до 01.04.25".toList⟩ :=
  (C3_manual_duplicate_noop demoCtx "12".toList "7".toList
    (Q.ofInt 1000) (Q.ofInt 0) (Q.ofInt 100) _
    (by decide) (by decide) (by decide) (by decide)).2.2.2

/-- C7 counterexample: completion issues a balance write that does not carry
the ledger: the per-operation write sequence contains a PUT touching the
balance fields without the history field, so balances and ledger are not
mutated together in one atomic document update. -/
theorem C7_counterexample :
    ¬ (∀ w ∈ handle_order_completion_writes demoCtx,
        touchesBalances w → touchesLedger w) := by
  decide

theorem bool_true_of_not_false {b : Bool} (h : ¬ b = false) : b = true := by
  cases b
  · exact absurd rfl h
  · rfl

theorem logIdentifier_some_ne_nil (oid lid : List Char) :
    logIdentifier oid (some lid) ≠ [] := by
  simp only [logIdentifier]
  by_cases h : oid = []
  · rw [if_pos h, if_pos rfl]
    simp
  · rw [if_neg h, if_neg (by simp)]
    simp

set_option maxHeartbeats 1600000 in
/-- C7 amended: balances and ledger are never written together.  Every
operation that changes the balances — completion, automatic reservation,
cancellation, manual reservation, and the expiry sweep — writes them
(with the recomputed expiry date) in one PUT and then, only if that PUT
succeeded (and the duplicate scan does not skip it), writes the ledger
text in a second separate PUT; no issued balance PUT carries the ledger
and no issued ledger PUT carries balances. -/
theorem C7_two_separate_writes (ctx : Wctx) :
    touchesBalances (update_buyer_bonus_fields true) ∧
    ¬ touchesLedger (update_buyer_bonus_fields true) ∧
    touchesBalances update_buyer_bonus_in_keycrm_fields ∧
    ¬ touchesLedger update_buyer_bonus_in_keycrm_fields ∧
    touchesLedger update_bonus_history_fields ∧
    ¬ touchesBalances update_bonus_history_fields ∧
    twoPhase ctx (update_buyer_bonus_fields true) update_bonus_history_fields
      (handle_order_completion_writes ctx) ∧
    (∀ (oid : List Char) (promo : Bool) (disc : Q) (a : Account),
      twoPhase ctx (update_buyer_bonus_fields true) update_bonus_history_fields
        (handle_order_reservation_writes ctx oid promo disc a)) ∧
    (∀ (oid : List Char) (a : Account),
      twoPhase ctx (update_buyer_bonus_fields true) update_bonus_history_fields
        (handle_order_cancellation_writes ctx oid a)) ∧
    (∀ (oid lid : List Char) (total cd req : Q) (a : Account),
      twoPhase ctx (update_buyer_bonus_fields true) update_bonus_history_fields
        (handle_lead_bonus_reservation_writes ctx oid lid total cd req a)) ∧
    (∀ (n : ℤ) (tsRef : List Char) (a : Account),
      twoPhase ctx update_buyer_bonus_in_keycrm_fields
        update_bonus_history_fields
        (check_bonus_expiry_writes ctx n tsRef a)) := by
  refine ⟨by decide, by decide, by decide, by decide, by decide, by decide,
    ?_, ?_, ?_, ?_, ?_⟩
  · unfold handle_order_completion_writes twoPhase
    split_ifs with h
    · exact Or.inr (Or.inr ⟨h, rfl⟩)
    · exact Or.inr (Or.inl rfl)
  · intro oid promo disc a
    simp only [handle_order_reservation_writes, log_transaction_writes,
      twoPhase]
    split_ifs <;>
      first
        | exact Or.inl rfl
        | exact Or.inr (Or.inl rfl)
        | exact Or.inr (Or.inr ⟨bool_true_of_not_false (by assumption), rfl⟩)
  · intro oid a
    simp only [handle_order_cancellation_writes, log_transaction_writes,
      twoPhase]
    split_ifs <;>
      first
        | exact Or.inl rfl
        | exact Or.inr (Or.inl rfl)
        | exact Or.inr (Or.inr ⟨bool_true_of_not_false (by assumption), rfl⟩)
  · intro oid lid total cd req a
    simp only [handle_lead_bonus_reservation_writes, log_transaction_writes,
      twoPhase]
    split_ifs <;>
      first
        | exact Or.inl rfl
        | exact Or.inr (Or.inl rfl)
        | exact Or.inr (Or.inr ⟨bool_true_of_not_false (by assumption), rfl⟩)
  · intro n tsRef a
    cases hexp : a.expiry with
    | none => simp [check_bonus_expiry_writes, hexp, twoPhase]
    | some d =>
      simp only [check_bonus_expiry_writes, hexp, twoPhase]
      split_ifs <;>
        first
          | exact Or.inl rfl
          | exact Or.inr (Or.inl rfl)
          | exact Or.inr (Or.inr ⟨by assumption, rfl⟩)

/-- Witness for the amended C7 theorem at the concrete demo context and a
concrete reservation. -/
theorem C7_two_separate_writes_witness :
    twoPhase demoCtx (update_buyer_bonus_fields true)
      update_bonus_history_fields (handle_order_completion_writes demoCtx) ∧
    twoPhase demoCtx (update_buyer_bonus_fields true)
      update_bonus_history_fields
      (handle_order_reservation_writes demoCtx ['1'] true (Q.ofInt 40)
        ⟨50, 0, none, []⟩) :=
  ⟨(C7_two_separate_writes demoCtx).2.2.2.2.2.2.1,
    (C7_two_separate_writes demoCtx).2.2.2.2.2.2.2.1 ['1'] true (Q.ofInt 40)
      ⟨50, 0, none, []⟩⟩

/-- C9 counterexample: with the balance write succeeding and the history
write failing, completing order 1 for 1000 still reports success, but no
`history_updated:false` flag is carried: `log_transaction` returns
`success:false` with the key absent, and the handler discards that result. -/
theorem C9_counterexample :
    (handle_order_completion failHistCtx "1".toList (Q.ofInt 1000)
      (Q.ofInt 0) ⟨0, 0, none, []⟩).success = true ∧
    ((handle_order_completion failHistCtx "1".toList (Q.ofInt 1000)
      (Q.ofInt 0) ⟨0, 0, none, []⟩).logRes.map
        (fun l => l.history_updated)) = some none ∧
    ((handle_order_completion failHistCtx "1".toList (Q.ofInt 1000)
      (Q.ofInt 0) ⟨0, 0, none, []⟩).logRes.map
        (fun l => l.success)) = some false := by
  decide

set_option maxHeartbeats 1000000 in
/-- C9 amended: for every operation — completion, cancellation, automatic
reservation (off the skip paths and with no duplicate-scan hit) and a
successful manual reservation — in which the balance write succeeds and
the ledger write fails, the operation still reports overall success (HTTP
200) with the stored ledger unchanged; but no `history_updated:false`
flag is surfaced: `log_transaction` returns `success:false` with no
`history_updated` key at all (the flag exists only in its duplicate-skip
and success branches), and every handler discards the log result. -/
theorem C9_history_write_failure_soft (ctx : Wctx)
    (hb : ctx.balanceWriteOk = true) (hh : ctx.historyWriteOk = false) :
    (∀ (oid : List Char) (total disc : Q) (a : Account),
      (handle_order_completion ctx oid total disc a).status = 200 ∧
      (handle_order_completion ctx oid total disc a).success = true ∧
      (handle_order_completion ctx oid total disc a).account.history
        = a.history ∧
      ((handle_order_completion ctx oid total disc a).logRes.map
        (fun l => l.success)) = some false ∧
      ((handle_order_completion ctx oid total disc a).logRes.map
        (fun l => l.history_updated)) = some none) ∧
    (∀ (oid : List Char) (used total : Q) (a : Account),
      (handle_order_cancellation_by_client_id ctx oid used total a).status
        = 200 ∧
      (handle_order_cancellation_by_client_id ctx oid used total a).success
        = true ∧
      (handle_order_cancellation_by_client_id ctx oid used total
        a).account.history = a.history ∧
      ((handle_order_cancellation_by_client_id ctx oid used total a).logRes.map
        (fun l => l.success)) = some false ∧
      ((handle_order_cancellation_by_client_id ctx oid used total a).logRes.map
        (fun l => l.history_updated)) = some none) ∧
    (∀ (oid : List Char) (total disc : Q) (a : Account),
      Q.beq disc (Q.ofInt 0) = false →
      Q.ble (Q.qmin disc (Q.ofInt a.active)) (Q.ofInt 0) = false →
      (infixB ('#' :: oid) a.history &&
        (infixB rezChars a.history && !(infixB manRezChars a.history)))
        = false →
      (handle_order_reservation ctx oid true total disc a).status = 200 ∧
      (handle_order_reservation ctx oid true total disc a).success = true ∧
      (handle_order_reservation ctx oid true total disc a).account.history
        = a.history ∧
      ((handle_order_reservation ctx oid true total disc a).logRes.map
        (fun l => l.success)) = some false ∧
      ((handle_order_reservation ctx oid true total disc a).logRes.map
        (fun l => l.history_updated)) = some none) ∧
    (∀ (oid lid : List Char) (total cd req : Q) (a : Account),
      (handle_lead_bonus_reservation ctx oid lid total cd req a).kind
        = ManualKind.ok →
      (handle_lead_bonus_reservation ctx oid lid total cd req a).status
        = 200 ∧
      (handle_lead_bonus_reservation ctx oid lid total cd req a).success
        = true ∧
      (handle_lead_bonus_reservation ctx oid lid total cd req
        a).account.history = a.history ∧
      ((handle_lead_bonus_reservation ctx oid lid total cd req a).logRes.map
        (fun l => l.success)) = some false ∧
      ((handle_lead_bonus_reservation ctx oid lid total cd req a).logRes.map
        (fun l => l.history_updated)) = some none) := by
  refine ⟨?_, ?_, ?_, ?_⟩
  · intro oid total disc a
    simp only [handle_order_completion, hb, Bool.true_eq_false, if_false,
      log_transaction]
    simp [hh]
  · intro oid used total a
    simp only [handle_order_cancellation_by_client_id, hb,
      Bool.true_eq_false, if_false, log_transaction]
    simp [hh]
  · intro oid total disc a hdisc hgrant hnd
    simp only [handle_order_reservation]
    rw [if_neg (by simp [hdisc])]
    rw [if_neg (by simp [hgrant])]
    rw [if_neg (by simp [hb])]
    by_cases hoid : oid = []
    · simp [log_transaction, logIdentifier, hoid, hh]
    · simp [log_transaction, logIdentifier, hoid, hnd, hh]
  · intro oid lid total cd req a hok
    simp only [handle_lead_bonus_reservation] at hok ⊢
    split_ifs at hok ⊢
    · rename_i hc1 hc2 hc3 hc4 hc5 hcap hg hbw
      have hm : has_manual_reserve_for_order a.history oid = false :=
        Bool.eq_false_iff.mpr hc5
      simp [log_transaction, logIdentifier_some_ne_nil, hm, hh]
    · rename_i hc1 hc2 hc3 hc4 hc5 hcap hg hbw
      have hm : has_manual_reserve_for_order a.history oid = false :=
        Bool.eq_false_iff.mpr hc5
      simp [log_transaction, logIdentifier_some_ne_nil, hm, hh]

set_option maxRecDepth 8000 in
/-- Witness for the amended C9 theorem at a concrete completion,
cancellation, automatic reservation and manual reservation, all under the
failing-history context. -/
theorem C9_history_write_failure_soft_witness :
    (handle_order_completion failHistCtx ['1'] (Q.ofInt 1000) (Q.ofInt 0)
      ⟨0, 0, none, []⟩).success = true ∧
    (handle_order_cancellation_by_client_id failHistCtx ['1'] (Q.ofInt 10)
      (Q.ofInt 100) ⟨50, 10, none, []⟩).success = true ∧
    (handle_order_reservation failHistCtx ['1'] true (Q.ofInt 100)
      (Q.ofInt 40) ⟨50, 0, none, []⟩).success = true ∧
    (handle_lead_bonus_reservation failHistCtx ['1'] ['7'] (Q.ofInt 1000)
      (Q.ofInt 0) (Q.ofInt 300) ⟨500, 0, none, []⟩).success = true := by
  have h := C9_history_write_failure_soft failHistCtx (by decide) (by decide)
  exact ⟨(h.1 ['1'] (Q.ofInt 1000) (Q.ofInt 0) ⟨0, 0, none, []⟩).2.1,
    (h.2.1 ['1'] (Q.ofInt 10) (Q.ofInt 100) ⟨50, 10, none, []⟩).2.1,
    (h.2.2.1 ['1'] (Q.ofInt 100) (Q.ofInt 40) ⟨50, 0, none, []⟩
      (by decide) (by decide) (by decide)).2.1,
    (h.2.2.2 ['1'] ['7'] (Q.ofInt 1000) (Q.ofInt 0) (Q.ofInt 300)
      ⟨500, 0, none, []⟩ (by decide)).2.1⟩

set_option maxRecDepth 4000 in
/-- C10: order-reference matching in the ledger is substring based: after a
single automatic reservation of 400 against order "123" (total 1000), the
ledger scan credits the same 400 to the distinct order "12" (a proper
prefix), and the idempotency scan reports order "12" as already processed —
the replayed log call skips the write — although no entry was ever written
for order "12". -/
theorem C10_substring_matching :
    (let h := (handle_order_reservation demoCtx "123".toList true
        (Q.ofInt 1000) (Q.ofInt 400) ⟨500, 0, none, []⟩).account.history
     find_reserved_amount_for_order h "12".toList = some 400 ∧
     find_reserved_amount_for_order h "123".toList = some 400 ∧
     (log_transaction demoCtx "12".toList none OpType.reserved (Q.ofInt 0)
        (Q.ofInt 10) 100 90 (Q.ofInt 100) h).history_updated = some false ∧
     (log_transaction demoCtx "12".toList none OpType.reserved (Q.ofInt 0)
        (Q.ofInt 10) 100 90 (Q.ofInt 100) h).newHistory = h) := by
  decide

/-- C8: the lazy expiry sweep is a no-op when the active balance is
non-positive or no expiry date is set; when `now` is past the expiry date
it zeroes the active balance, appends an expired ledger entry whose removal
amount is the negated previous active balance, and reports
`{expired: true, expired_amount}`; the deduction path runs the check first
and refuses the redemption when it expired the balance; the reserved
balance is never changed by the sweep. -/
theorem C8_expiry_sweep (ctx : Wctx) (now : ℤ) (ts : List Char)
    (a : Account) :
    ((a.active ≤ 0 ∨ a.expiry = none) →
      check_bonus_expiry ctx now ts a = (⟨true, false, none⟩, a)) ∧
    (∀ d, a.expiry = some d → 0 < a.active → d < now →
      ctx.balanceWriteOk = true →
      (check_bonus_expiry ctx now ts a).1 = ⟨true, true, some a.active⟩ ∧
      (check_bonus_expiry ctx now ts a).2.active = 0 ∧
      (infixB ('#' :: expiredRef ts) a.history = false →
        ctx.historyWriteOk = true →
        ∃ rest, (check_bonus_expiry ctx now ts a).2.history =
          ltkEntry ctx (expiredRef ts) (Q.ofInt (-a.active)) a.active 0 none
            ++ rest) ∧
      ('-' :: intToChars a.active) <:+:
        ltkEntry ctx (expiredRef ts) (Q.ofInt (-a.active)) a.active 0 none) ∧
    ((check_bonus_expiry ctx now ts a).2.reserved = a.reserved) ∧
    (∀ (deduct : ℤ) (oid : List Char),
      (check_bonus_expiry ctx now ts a).1.expired = true →
      sync_bonus_deduction_with_keycrm ctx now ts oid deduct a =
        (⟨false, true, false, none⟩, (check_bonus_expiry ctx now ts a).2)) := by
  refine ⟨?_, ?_, (sweep_shape ctx now ts a).2, ?_⟩
  · intro h
    unfold check_bonus_expiry
    rw [if_pos h]
  · intro d hd hpos hnow hb
    have hcond : ¬ (a.active ≤ 0 ∨ a.expiry = none) := by
      rw [hd]
      push_neg
      exact ⟨by omega, by simp⟩
    unfold check_bonus_expiry
    rw [if_neg hcond, hd]
    simp only [hnow, if_true, hb, if_true]
    refine ⟨by trivial, by trivial, ?_,
      ltkEntry_expired_used ctx (expiredRef ts) a.active hpos⟩
    intro hdup hw
    exact ltk_newHistory_append ctx (expiredRef ts) (Q.ofInt (-a.active))
      a.active 0 none a.history hdup hw
  · intro deduct oid hexp
    unfold sync_bonus_deduction_with_keycrm
    rw [if_pos hexp]

/-- Witness for C8 at a concrete expired account (balance 200, expiry
timestamp 5, now 10): the sweep zeroes the balance and the deduction path
refuses. -/
theorem C8_expiry_sweep_witness :
    (check_bonus_expiry demoCtx 10 "99".toList ⟨200, 35, some 5, []⟩).1
      = ⟨true, true, some 200⟩ ∧
    (check_bonus_expiry demoCtx 10 "99".toList ⟨200, 35, some 5, []⟩).2.active
      = 0 ∧
    (check_bonus_expiry demoCtx 10 "99".toList ⟨200, 35, some 5, []⟩).2.reserved
      = 35 ∧
    sync_bonus_deduction_with_keycrm demoCtx 10 "99".toList "1".toList 50
        ⟨200, 35, some 5, []⟩ =
      (⟨false, true, false, none⟩,
        (check_bonus_expiry demoCtx 10 "99".toList ⟨200, 35, some 5, []⟩).2) := by
  have h := C8_expiry_sweep demoCtx 10 "99".toList ⟨200, 35, some 5, []⟩
  obtain ⟨hexp, hzero, _, _⟩ := h.2.1 5 rfl (by decide) (by decide) (by decide)
  refine ⟨hexp, hzero, h.2.2.1, h.2.2.2 50 "1".toList ?_⟩
  rw [hexp]

set_option maxRecDepth 8000 in
/-- C4 counterexample: completion is not idempotent.  Reserving 500 against
order 1 (total 1000) and then completing it twice yields 100 active points
after the first completion but 200 after the replay, and the ledger ends up
with two `completed` entries; the second call reports plain success with no
duplicate marker. -/
theorem C4_counterexample :
    (let a1 := (handle_order_reservation demoCtx "1".toList true
        (Q.ofInt 1000) (Q.ofInt 500) ⟨500, 0, none, []⟩).account
     let c1 := handle_order_completion demoCtx "1".toList (Q.ofInt 1000)
        (Q.ofInt 400) a1
     let c2 := handle_order_completion demoCtx "1".toList (Q.ofInt 1000)
        (Q.ofInt 400) c1.account
     c1.account.active = 100 ∧ c1.account.reserved = 0 ∧
     c2.success = true ∧
     c2.account.active = 200 ∧
     c2.account.active ≠ c1.account.active ∧
     ((cleanLines c2.account.history).filter
        (fun l => l.contains '✅')).length = 2 ∧
     ((cleanLines c1.account.history).filter
        (fun l => l.contains '✅')).length = 1) := by
  decide

/-- C4 amended: replaying `complete(account, order)` is not idempotent: no
`completed` duplicate check exists, so the second call reports plain
success, writes the ledger again (`history_updated = true`, no duplicate
marker), and accrues the bonus a second time — after two runs the active
balance is the initial one plus twice `floor(total * 10%)`. -/
theorem C4_complete_not_idempotent (ctx : Wctx) (oid : List Char)
    (total disc : Q) (a : Account) (hb : ctx.balanceWriteOk = true)
    (hw : ctx.historyWriteOk = true) (ht : 0 ≤ total.val)
    (ha : 0 ≤ a.active) :
    (handle_order_completion ctx oid total disc
      (handle_order_completion ctx oid total disc a).account).status = 200 ∧
    (handle_order_completion ctx oid total disc
      (handle_order_completion ctx oid total disc a).account).success = true ∧
    ((handle_order_completion ctx oid total disc
      (handle_order_completion ctx oid total disc a).account).logRes.map
        (fun l => l.history_updated)) = some (some true) ∧
    (handle_order_completion ctx oid total disc a).account.active
      = a.active + ⌊total.val * (1 / 10)⌋ ∧
    (handle_order_completion ctx oid total disc
      (handle_order_completion ctx oid total disc a).account).account.active
      = a.active + 2 * ⌊total.val * (1 / 10)⌋ := by
  have h1 := handle_order_completion_ok ctx oid total disc a hb
  have hact1 : (handle_order_completion ctx oid total disc a).account.active
      = a.active + ⌊total.val * (1 / 10)⌋ := by
    rw [h1]
    exact completion_newB_val total a.active ht ha
  have hfloor : 0 ≤ ⌊total.val * (1 / 10)⌋ :=
    Int.floor_nonneg.mpr (by positivity)
  have ha1 : 0 ≤ (handle_order_completion ctx oid total disc a).account.active := by
    rw [hact1]
    omega
  have h2 := handle_order_completion_ok ctx oid total disc
    (handle_order_completion ctx oid total disc a).account hb
  have hact2 : (handle_order_completion ctx oid total disc
      (handle_order_completion ctx oid total disc a).account).account.active
      = (handle_order_completion ctx oid total disc a).account.active
        + ⌊total.val * (1 / 10)⌋ := by
    rw [h2]
    exact completion_newB_val total _ ht ha1
  refine ⟨by rw [h2], by rw [h2], ?_, hact1, ?_⟩
  · rw [h2]
    simp only [Option.map_some']
    exact congrArg some ((log_transaction_completed _ _ _ _ _ _ _ _ _ hw).2)
  · rw [hact2, hact1]
    ring

/-- Witness for the amended C4 theorem: completing order 1 (total 1000)
twice from a zero history doubles the accrual to 200. -/
theorem C4_complete_not_idempotent_witness :
    (handle_order_completion demoCtx "1".toList (Q.ofInt 1000) (Q.ofInt 0)
      (handle_order_completion demoCtx "1".toList (Q.ofInt 1000) (Q.ofInt 0)
        ⟨0, 0, none, []⟩).account).account.active = 200 := by
  have h := C4_complete_not_idempotent demoCtx "1".toList (Q.ofInt 1000)
    (Q.ofInt 0) ⟨0, 0, none, []⟩ (by decide) (by decide)
    (by norm_num [Q.val_ofInt]) (by decide)
  rw [h.2.2.2.2]
  norm_num [Q.val_ofInt]

/-- C5 counterexample: with no reservation entry in the ledger and a
fractional order discount of 10.5, completing an account holding 20
reserved points stores `int(max(0, 20 - 10.5)) = 9`, not the claimed
`max(0, 20 - 10.5) = 9.5`: the stored balance is the integer truncation of
the claimed value. -/
theorem C5_counterexample :
    ((handle_order_completion demoCtx "1".toList (Q.ofInt 1000)
      ⟨21, 2, by norm_num⟩ ⟨0, 20, none, []⟩).account.reserved = 9) ∧
    spec_complete_new_reserved 20 (Q.val ⟨21, 2, by norm_num⟩) = 19 / 2 ∧
    ((9 : ℚ) ≠ 19 / 2) := by
  refine ⟨by decide, ?_, by norm_num⟩
  norm_num [spec_complete_new_reserved, Q.val]

/-- C5 amended: completion accrues exactly `floor(total * 10%)` onto the
active balance and stores as the reserved balance the integer truncation of
`max(0, reserved - reserved_for_order)`, where `reserved_for_order` is the
ledger total when at least one reservation entry exists (a found total of
zero being distinct from "not found") and the order's `discount_amount`
otherwise; when the ledger total is found the truncation is the identity
and the stored value is exactly `max(0, reserved - found_total)`. -/
theorem C5_complete_balances (ctx : Wctx) (oid : List Char) (total disc : Q)
    (a : Account) (hb : ctx.balanceWriteOk = true) (ht : 0 ≤ total.val)
    (ha : 0 ≤ a.active) :
    (handle_order_completion ctx oid total disc a).account.active
      = a.active + ⌊total.val * (1 / 10)⌋ ∧
    (handle_order_completion ctx oid total disc a).usedBonus
      = some (match find_reserved_amount_for_order a.history oid with
          | some n => Q.ofNat n
          | none => disc) ∧
    (handle_order_completion ctx oid total disc a).account.reserved
      = pyInt (max 0 ((a.reserved : ℚ)
          - (match find_reserved_amount_for_order a.history oid with
              | some n => Q.ofNat n
              | none => disc : Q).val)) ∧
    (∀ n : ℕ, find_reserved_amount_for_order a.history oid = some n →
      (handle_order_completion ctx oid total disc a).account.reserved
        = max 0 (a.reserved - (n : ℤ))) := by
  have hok := handle_order_completion_ok ctx oid total disc a hb
  have hres : (handle_order_completion ctx oid total disc a).account.reserved
      = pyInt (max 0 ((a.reserved : ℚ)
          - (match find_reserved_amount_for_order a.history oid with
              | some n => Q.ofNat n
              | none => disc : Q).val)) := by
    rw [hok]
    show (Q.qmax (Q.ofInt 0) (Q.sub (Q.ofInt a.reserved) _)).toInt = _
    rw [Q.toInt_eq_pyInt]
    simp only [Q.val_qmax, Q.val_sub, Q.val_ofInt, Int.cast_zero]
  refine ⟨?_, ?_, hres, ?_⟩
  · rw [hok]
    exact completion_newB_val total a.active ht ha
  · rw [hok]
  · intro n hn
    rw [hres, hn]
    rw [show (Q.ofNat n).val = ((n : ℤ) : ℚ) by rw [Q.val_ofNat]; push_cast; rfl]
    exact pyInt_max_int a.reserved n

/-- Witness for the amended C5 theorem: completing order 1 (total 1000,
no reservation found, zero discount) on an account of 50 active / 30
reserved gives 150 active and 30 reserved. -/
theorem C5_complete_balances_witness :
    (handle_order_completion demoCtx "1".toList (Q.ofInt 1000) (Q.ofInt 0)
      ⟨50, 30, none, []⟩).account.active = 150 ∧
    (handle_order_completion demoCtx "1".toList (Q.ofInt 1000) (Q.ofInt 0)
      ⟨50, 30, none, []⟩).account.reserved = 30 := by
  have h := C5_complete_balances demoCtx "1".toList (Q.ofInt 1000)
    (Q.ofInt 0) ⟨50, 30, none, []⟩ (by decide) (by norm_num [Q.val_ofInt])
    (by decide)
  constructor
  · rw [h.1]
    norm_num [Q.val_ofInt]
  · rw [h.2.2.1]
    norm_num [Q.val_ofInt, find_reserved_amount_for_order, pyInt]

/-- C6 counterexample: cancelling with no ledger entry and a caller-supplied
fallback of 10.5 on an account of 0 active / 20 reserved stores
`int(0 + 10.5) = 10` as the new active balance, not the claimed
`0 + 10.5`: the stored balance is the integer truncation of the claimed
value. -/
theorem C6_counterexample :
    ((handle_order_cancellation_by_client_id demoCtx "1".toList
      ⟨21, 2, by norm_num⟩ (Q.ofInt 100) ⟨0, 20, none, []⟩).account.active
        = 10) ∧
    spec_cancel_new_active 0 (min ((21 : ℚ) / 2) 20) = 21 / 2 ∧
    ((10 : ℚ) ≠ 21 / 2) := by
  refine ⟨by decide, ?_, by norm_num⟩
  norm_num [spec_cancel_new_active]

/-- C6 amended: cancellation computes
`return_amount = min(reserved_for_order, reserved_balance)`, stores the
integer truncations of `active + return_amount` and
`reserved - return_amount`, and grants no accrual; `reserved_for_order`
comes from the ledger's reservation entries and falls back to the
caller-supplied amount when none is found; when the ledger total is found
the truncations are identities and the claimed formulas hold exactly. -/
theorem C6_cancel_balances (ctx : Wctx) (oid : List Char) (used total : Q)
    (a : Account) (hb : ctx.balanceWriteOk = true) :
    (handle_order_cancellation_by_client_id ctx oid used total a).account.active
      = pyInt ((a.active : ℚ)
          + min (match find_reserved_amount_for_order a.history oid with
              | some n => Q.ofNat n
              | none => used : Q).val ((a.reserved : ℤ) : ℚ)) ∧
    (handle_order_cancellation_by_client_id ctx oid used total a).account.reserved
      = pyInt ((a.reserved : ℚ)
          - min (match find_reserved_amount_for_order a.history oid with
              | some n => Q.ofNat n
              | none => used : Q).val ((a.reserved : ℤ) : ℚ)) ∧
    (∀ n : ℕ, find_reserved_amount_for_order a.history oid = some n →
      (handle_order_cancellation_by_client_id ctx oid used total a).account.active
        = a.active + min (n : ℤ) a.reserved ∧
      (handle_order_cancellation_by_client_id ctx oid used total a).account.reserved
        = a.reserved - min (n : ℤ) a.reserved) := by
  have hok := handle_cancel_ok ctx oid used total a hb
  have hact : (handle_order_cancellation_by_client_id ctx oid used total a).account.active
      = pyInt ((a.active : ℚ)
          + min (match find_reserved_amount_for_order a.history oid with
              | some n => Q.ofNat n
              | none => used : Q).val ((a.reserved : ℤ) : ℚ)) := by
    rw [hok]
    show (Q.add (Q.ofInt a.active) (Q.qmin _ (Q.ofInt a.reserved))).toInt = _
    rw [Q.toInt_eq_pyInt]
    simp only [Q.val_add, Q.val_qmin, Q.val_ofInt]
  have hresv : (handle_order_cancellation_by_client_id ctx oid used total a).account.reserved
      = pyInt ((a.reserved : ℚ)
          - min (match find_reserved_amount_for_order a.history oid with
              | some n => Q.ofNat n
              | none => used : Q).val ((a.reserved : ℤ) : ℚ)) := by
    rw [hok]
    show (Q.sub (Q.ofInt a.reserved) (Q.qmin _ (Q.ofInt a.reserved))).toInt = _
    rw [Q.toInt_eq_pyInt]
    simp only [Q.val_sub, Q.val_qmin, Q.val_ofInt]
  refine ⟨hact, hresv, ?_⟩
  intro n hn
  have hcast : (Q.ofNat n).val = ((n : ℤ) : ℚ) := by
    rw [Q.val_ofNat]
    push_cast
    rfl
  constructor
  · rw [hact, hn, hcast]
    exact pyInt_add_min_int a.active a.reserved n
  · rw [hresv, hn, hcast]
    exact pyInt_sub_min_int a.reserved n

/-- Witness for the amended C6 theorem: cancelling order 1 whose ledger
holds a 40-point reservation, on an account of 60 active / 40 reserved,
returns the 40 points to active. -/
theorem C6_cancel_balances_witness :
    (handle_order_cancellation_by_client_id demoCtx "1".toList (Q.ofInt 0)
      (Q.ofInt 100)
      ⟨60, 40, none,
        "🔒 01.01.25 10:00 | #1 | 100₴ | резерв 40 | 100→60 | до 01.04.25".toList⟩).account.active
      = 100 ∧
    (handle_order_cancellation_by_client_id demoCtx "1".toList (Q.ofInt 0)
      (Q.ofInt 100)
      ⟨60, 40, none,
        "🔒 01.01.25 10:00 | #1 | 100₴ | резерв 40 | 100→60 | до 01.04.25".toList⟩).account.reserved
      = 0 := by
  have h := C6_cancel_balances demoCtx "1".toList (Q.ofInt 0) (Q.ofInt 100)
    ⟨60, 40, none,
      "🔒 01.01.25 10:00 | #1 | 100₴ | резерв 40 | 100→60 | до 01.04.25".toList⟩
    (by decide)
  obtain ⟨h1, h2⟩ := h.2.2 40 (by decide)
  constructor
  · rw [h1]; decide
  · rw [h2]; decide

set_option maxRecDepth 8000 in
/-- C2 counterexample: the automatic reservation path enforces no cap.  On
an order of total 100 a promo reservation of 80 succeeds and the ledger
afterwards records 80 reserved for the order, although 80 exceeds the
claimed bound of `100 * 0.5 = 50`: `handle_order_reservation` grants
`min(discount, active_balance)` without ever consulting the 50% cap. -/
theorem C2_counterexample :
    (handle_order_reservation demoCtx ['1'] true (Q.ofInt 100) (Q.ofInt 80)
        ⟨80, 0, none, []⟩).success = true ∧
    (handle_order_reservation demoCtx ['1'] true (Q.ofInt 100) (Q.ofInt 80)
        ⟨80, 0, none, []⟩).kind = AutoRKind.ok ∧
    find_reserved_amount_for_order
        (handle_order_reservation demoCtx ['1'] true (Q.ofInt 100)
          (Q.ofInt 80) ⟨80, 0, none, []⟩).account.history ['1'] = some 80 ∧
    (Q.mul (Q.ofInt 100) HALF).val < ((80 : ℕ) : ℚ) := by
  refine ⟨by decide, by decide, by decide, ?_⟩
  rw [Q.val_mul, Q.val_ofInt, HALF_val]
  norm_num

set_option maxHeartbeats 1000000 in
/-- C2 amended: only the manual path enforces the 50% cap, and there it
does hold: when `handle_lead_bonus_reservation` succeeds with a fresh
grant (kind `ok`), the ledger total the scan reads for the order on the
post-call account stays within `order_total * 0.5`, because the handler
refuses when `already_reserved + amount` would exceed `order_total * 0.5`
and then grants at most `amount`.  The automatic path applies no cap at
all (see the counterexample). -/
theorem C2_manual_cap (ctx : Wctx) (oid lid : List Char)
    (total cd req : Q) (a : Account)
    (hdn : '\n' ∉ ctx.dateStr) (hdz : 'з' ∉ ctx.dateStr)
    (hen : '\n' ∉ ctx.expiryStr) (hexp : ctx.expiryStr ≠ [])
    (hlast : ∀ c, ctx.expiryStr.getLast? = some c → c.isWhitespace = false)
    (hoid : ∀ c ∈ oid, c.isDigit = true) (hlid : ∀ c ∈ lid, c.isDigit = true)
    (hok : (handle_lead_bonus_reservation ctx oid lid total cd req a).kind
      = ManualKind.ok) :
    ((find_reserved_amount_for_order
        (handle_lead_bonus_reservation ctx oid lid total cd req a).account.history
        oid).getD 0 : ℚ)
      ≤ total.val * (1 / 2) := by
  simp only [handle_lead_bonus_reservation] at hok ⊢
  split_ifs at hok ⊢
  · rename_i hc1 hc2 hc3 hc4 hc5 hcap hg hbw
    refine manual_cap_core ctx oid lid
      (Q.qmin (Q.sub (Q.mul total HALF) cd) (Q.ofInt a.active))
      (Q.sub (Q.mul total HALF) cd) total _ _ a.history
      hdn hdz hen hexp hlast hoid hlid ?_ ?_ ?_
    · rw [Q.val_qmin]
      exact min_le_left _ _
    · by_contra hle
      push_neg at hle
      exact hg ((Q.ble_iff _ _).mpr (by simpa using hle))
    · have hc := (not_congr (Q.blt_iff _ _)).mp hcap
      push_neg at hc
      rw [Q.val_add, Q.val_ofNat, Q.val_mul, HALF_val] at hc
      linarith [hc]
  · rename_i hc1 hc2 hc3 hc4 hc5 hcap hg hbw
    refine manual_cap_core ctx oid lid
      (Q.qmin req (Q.ofInt a.active)) req total _ _ a.history
      hdn hdz hen hexp hlast hoid hlid ?_ ?_ ?_
    · rw [Q.val_qmin]
      exact min_le_left _ _
    · by_contra hle
      push_neg at hle
      exact hg ((Q.ble_iff _ _).mpr (by simpa using hle))
    · have hc := (not_congr (Q.blt_iff _ _)).mp hcap
      push_neg at hc
      rw [Q.val_add, Q.val_ofNat, Q.val_mul, HALF_val] at hc
      linarith [hc]

set_option maxRecDepth 8000 in
/-- Witness for the amended C2 theorem: a fresh manual reservation of 300
against an order of total 1000 on an account with 500 active points
succeeds, and the resulting ledger total for the order stays within
`1000 * 0.5`. -/
theorem C2_manual_cap_witness :
    (handle_lead_bonus_reservation demoCtx ['1'] ['7'] (Q.ofInt 1000)
        (Q.ofInt 0) (Q.ofInt 300) ⟨500, 0, none, []⟩).kind = ManualKind.ok ∧
    ((find_reserved_amount_for_order
        (handle_lead_bonus_reservation demoCtx ['1'] ['7'] (Q.ofInt 1000)
          (Q.ofInt 0) (Q.ofInt 300) ⟨500, 0, none, []⟩).account.history
        ['1']).getD 0 : ℚ)
      ≤ (Q.ofInt 1000).val * (1 / 2) :=
  ⟨by decide,
    C2_manual_cap demoCtx ['1'] ['7'] (Q.ofInt 1000) (Q.ofInt 0) (Q.ofInt 300)
      ⟨500, 0, none, []⟩ (by decide) (by decide) (by decide) (by decide)
      (by
        intro c hc
        rw [show demoCtx.expiryStr.getLast? = some '5' from rfl,
          Option.some.injEq] at hc
        rw [← hc]
        decide)
      (by decide) (by decide) (by decide)⟩

end Bonus
